import Mathlib

/-!
# Community modules: catalog, managed and installed views

A shallow embedding of `internal/communitymodules/modules.go`, followed by the
operations of package `kyma` on the module list of the Kyma resource.

Conventions of the embedding:

* a Go `string` is a Lean `String`; the library routines that scan a string
  work on its list of characters (`String.data`).  Every separator, prefix and
  cut set the program uses is ASCII, so scanning characters and scanning UTF-8
  bytes agree;
* a Go run-time panic (`slices.MaxFunc` on an empty slice, an index out of
  range) is the value `none` of an `Option`, or `Result.panic`;
* a Go `map[string]T` is a list of key/value pairs without repeated keys; the
  order of the list is the order in which a `range` loop visits the map;
* calls that leave the process (HTTP fetch, cluster lookups, JSON decoding of
  raw bytes) are parameters of the functions that use them.
-/

set_option linter.dupNamespace false

namespace Communitymodules

/-! ## Library routines used by the program -/

namespace strings

/-- Segments of a character list cut at every occurrence of `sep`. -/
def splitChars (sep : Char) : List Char → List (List Char)
  | [] => [[]]
  | c :: cs =>
    if c = sep then [] :: splitChars sep cs
    else
      match splitChars sep cs with
      | [] => [[c]]
      | seg :: segs => (c :: seg) :: segs

/-- Go `strings.Split(s, sep)` for a one-character separator. -/
def Split (s : String) (sep : Char) : List String :=
  (splitChars sep s.data).map String.mk

/-- Substring test on character lists. -/
def containsChars (sub : List Char) : List Char → Bool
  | [] => sub.isEmpty
  | c :: cs => sub.isPrefixOf (c :: cs) || containsChars sub cs

/-- Go `strings.Contains(s, substr)`. -/
def Contains (s substr : String) : Bool :=
  containsChars substr.data s.data

/-- Go `strings.TrimPrefix(s, pre)`: `s` without the leading `pre` when it has it. -/
def TrimPrefix (s pre : String) : String :=
  if pre.data.isPrefixOf s.data then String.mk (s.data.drop pre.data.length) else s

/-- Go `strings.Trim(s, cutset)`: `s` without the leading and trailing
characters that belong to `cutset`. -/
def Trim (s cutset : String) : String :=
  String.mk (((s.data.dropWhile (fun c => cutset.data.contains c)).reverse.dropWhile
    (fun c => cutset.data.contains c)).reverse)

end strings

namespace slices

/-- The loop of Go `slices.MaxFunc`: `m` is the running maximum. -/
def maxFuncLoop {α : Type} (cmp : α → α → Int) : α → List α → α
  | m, [] => m
  | m, x :: xs => if cmp x m > 0 then maxFuncLoop cmp x xs else maxFuncLoop cmp m xs

/-- Go `slices.MaxFunc(x, cmp)`; `none` is the panic on an empty slice. -/
def MaxFunc {α : Type} (x : List α) (cmp : α → α → Int) : Option α :=
  match x with
  | [] => none
  | m :: rest => some (maxFuncLoop cmp m rest)

end slices

/-! ## `golang.org/x/mod/semver` -/

namespace semver

/-- The fields of a parsed version. -/
structure parsed where
  major : List Char
  minor : List Char
  patch : List Char
  short : List Char
  prerelease : List Char
  build : List Char
  deriving DecidableEq, Repr

/-- Go `x < y` on strings: lexicographic order of the characters. -/
def strLess : List Char → List Char → Bool
  | [], [] => false
  | [], _ :: _ => true
  | _ :: _, [] => false
  | a :: as, b :: bs =>
    if a.toNat < b.toNat then true
    else if b.toNat < a.toNat then false
    else strLess as bs

def isIdentChar (c : Char) : Bool :=
  ('A' ≤ c && c ≤ 'Z') || ('a' ≤ c && c ≤ 'z') || ('0' ≤ c && c ≤ '9') || c == '-'

def isDigitChar (c : Char) : Bool := '0' ≤ c && c ≤ '9'

def isBadNum (v : List Char) : Bool :=
  let i := (v.takeWhile isDigitChar).length
  i == v.length && i > 1 && v.head? == some '0'

def isNum (v : List Char) : Bool :=
  (v.takeWhile isDigitChar).length == v.length

def parseInt (v : List Char) : Option (List Char × List Char) :=
  match v with
  | [] => none
  | c :: cs =>
    if !isDigitChar c then none
    else
      let i := 1 + (cs.takeWhile isDigitChar).length
      if c = '0' ∧ i ≠ 1 then none
      else some ((c :: cs).take i, (c :: cs).drop i)

/-- The scanning loop of `parsePrerelease`: `rest` is `v[i:]`, `cur` is
`v[start:i]` and `seen` is `v[:i]`. -/
def parsePrereleaseLoop : List Char → List Char → List Char → Option (List Char × List Char)
  | [], cur, seen =>
    if cur = [] ∨ isBadNum cur then none else some (seen, [])
  | c :: cs, cur, seen =>
    if c = '+' then
      if cur = [] ∨ isBadNum cur then none else some (seen, c :: cs)
    else if !isIdentChar c && c != '.' then none
    else if c = '.' then
      if cur = [] ∨ isBadNum cur then none else parsePrereleaseLoop cs [] (seen ++ [c])
    else parsePrereleaseLoop cs (cur ++ [c]) (seen ++ [c])

def parsePrerelease (v : List Char) : Option (List Char × List Char) :=
  match v with
  | [] => none
  | c :: cs => if c ≠ '-' then none else parsePrereleaseLoop cs [] [c]

/-- The scanning loop of `parseBuild`, with the same state as `parsePrereleaseLoop`. -/
def parseBuildLoop : List Char → List Char → List Char → Option (List Char × List Char)
  | [], cur, seen => if cur = [] then none else some (seen, [])
  | c :: cs, cur, seen =>
    if !isIdentChar c && c != '.' then none
    else if c = '.' then
      if cur = [] then none else parseBuildLoop cs [] (seen ++ [c])
    else parseBuildLoop cs (cur ++ [c]) (seen ++ [c])

def parseBuild (v : List Char) : Option (List Char × List Char) :=
  match v with
  | [] => none
  | c :: cs => if c ≠ '+' then none else parseBuildLoop cs [] [c]

def parse (v : List Char) : Option parsed :=
  match v with
  | [] => none
  | c :: v1 =>
    if c ≠ 'v' then none
    else
      match parseInt v1 with
      | none => none
      | some (major, v2) =>
        match v2 with
        | [] => some ⟨major, ['0'], ['0'], ['.', '0', '.', '0'], [], []⟩
        | d :: v3 =>
          if d ≠ '.' then none
          else
            match parseInt v3 with
            | none => none
            | some (minor, v4) =>
              match v4 with
              | [] => some ⟨major, minor, ['0'], ['.', '0'], [], []⟩
              | e :: v5 =>
                if e ≠ '.' then none
                else
                  match parseInt v5 with
                  | none => none
                  | some (patch, v6) =>
                    match (if v6.head? = some '-' then parsePrerelease v6 else some ([], v6)) with
                    | none => none
                    | some (pre, v7) =>
                      match (if v7.head? = some '+' then parseBuild v7 else some ([], v7)) with
                      | none => none
                      | some (build, v8) =>
                        if v8 ≠ [] then none else some ⟨major, minor, patch, [], pre, build⟩

/-- Go `semver.IsValid`. -/
def IsValid (v : String) : Bool := (parse v.data).isSome

def compareInt (x y : List Char) : Int :=
  if x = y then 0
  else if x.length < y.length then -1
  else if x.length > y.length then 1
  else if strLess x y then -1
  else 1

def nextIdent (x : List Char) : List Char × List Char :=
  (x.takeWhile (fun c => c != '.'), x.dropWhile (fun c => c != '.'))

/-- The `for x != "" && y != ""` loop of `comparePrerelease` together with the
final `if x == ""`; every iteration shortens `x`, so `fuel` above the length
of `x` is never used up. -/
def comparePrereleaseLoop : Nat → List Char → List Char → Int
  | 0, x, _ => if x = [] then -1 else 1
  | fuel + 1, x, y =>
    if x ≠ [] ∧ y ≠ [] then
      let ix := nextIdent (x.drop 1)
      let iy := nextIdent (y.drop 1)
      let dx := ix.1
      let dy := iy.1
      if dx ≠ dy then
        if isNum dx != isNum dy then
          if isNum dx then -1 else 1
        else if isNum dx && dx.length < dy.length then -1
        else if isNum dx && dx.length > dy.length then 1
        else if strLess dx dy then -1
        else 1
      else comparePrereleaseLoop fuel ix.2 iy.2
    else if x = [] then -1 else 1

def comparePrerelease (x y : List Char) : Int :=
  if x = y then 0
  else if x = [] then 1
  else if y = [] then -1
  else comparePrereleaseLoop (x.length + 1) x y

/-- Comparison of two parse results, as in the body of `semver.Compare`. -/
def compareParsed : Option parsed → Option parsed → Int
  | none, none => 0
  | none, some _ => -1
  | some _, none => 1
  | some pv, some pw =>
    if compareInt pv.major pw.major ≠ 0 then compareInt pv.major pw.major
    else if compareInt pv.minor pw.minor ≠ 0 then compareInt pv.minor pw.minor
    else if compareInt pv.patch pw.patch ≠ 0 then compareInt pv.patch pw.patch
    else comparePrerelease pv.prerelease pw.prerelease

/-- Go `semver.Compare`. -/
def Compare (v w : String) : Int := compareParsed (parse v.data) (parse w.data)

end semver

/-! ## Data model -/

/-- Modelled from the spec: the declaration of the struct `Version` is not among
the sources; a catalog version has a `version` string, an optional
`repository` and a `managerPath`, read by the code as `Version`, `Repository`
and `ManagerPath`. -/
structure Version where
  Version : String
  Repository : String
  ManagerPath : String
  deriving DecidableEq, Repr

/-- Modelled from the spec: the declaration of the struct `Module` is not among
the sources; a catalog module has a `name`, an optional `repository` and the
sequence of its `versions`, read by the code as `Name`, `Repository` and
`Versions`. -/
structure Module where
  Name : String
  Repository : String
  Versions : List Version
  deriving DecidableEq, Repr

abbrev Modules := List Module

structure row where
  Name : String
  Repository : String
  LatestVersion : String
  Version : String
  Managed : String
  deriving DecidableEq, Repr

/-- A Go `map[string]row`: key/value pairs without repeated keys. -/
abbrev moduleMap := List (String × row)

/-- The Go expression `m[k]` with its presence flag. -/
def moduleMap.get : moduleMap → String → Option row
  | [], _ => none
  | (key, value) :: rest, k => if key = k then some value else moduleMap.get rest k

/-- The Go assignment `m[k] = v`: the value under an existing key is replaced,
a new key is added. -/
def moduleMap.set : moduleMap → String → row → moduleMap
  | [], k, v => [(k, v)]
  | (key, value) :: rest, k, v =>
    if key = k then (k, v) :: rest else (key, value) :: moduleMap.set rest k v

/-- The keys of the map. -/
def moduleMap.keys (m : moduleMap) : List String := m.map Prod.fst

/-- What a call can do: return a value, return an error, or panic. -/
inductive Result (α : Type) where
  | ok (v : α)
  | error (msg : String)
  | panic
  deriving DecidableEq, Repr

/-! ## Catalog view -/

def chooseRepository (module : Module) (version : Version) : String :=
  if version.Repository ≠ "" then version.Repository
  else if module.Repository ≠ "" then module.Repository
  else "Unknown"

/-- The comparison closure passed to `slices.MaxFunc` in `getLatestVersion`. -/
def versionCmp (a b : Version) : Int :=
  let cmpA := if !semver.IsValid a.Version then "v" ++ a.Version else a.Version
  let cmpB := if !semver.IsValid b.Version then "v" ++ b.Version else b.Version
  semver.Compare cmpA cmpB

def getLatestVersion (versions : List Version) : Option Version :=
  slices.MaxFunc versions versionCmp

/-- The loop of `modulesCatalog` over the fetched modules, from the map built so far. -/
def modulesCatalogLoop : Modules → moduleMap → Result moduleMap
  | [], catalog => Result.ok catalog
  | rec :: rest, catalog =>
    match getLatestVersion rec.Versions with
    | none => Result.panic
    | some latestVersion =>
      modulesCatalogLoop rest
        (moduleMap.set catalog rec.Name
          ⟨rec.Name, chooseRepository rec latestVersion, latestVersion.Version, "", ""⟩)

/-- Function `modulesCatalog`; `fetched` is what `getCommunityModules(url)` returned. -/
def modulesCatalog (fetched : Except String Modules) : Result moduleMap :=
  match fetched with
  | Except.error err => Result.error err
  | Except.ok modules => modulesCatalogLoop modules []

/-! ## Managed view -/

/-- A decoded JSON value (`interface{}` after `json.Unmarshal`). -/
inductive JValue where
  | null
  | bool (b : Bool)
  | number (text : String)
  | string (s : String)
  | array (items : List JValue)
  | object (fields : List (String × JValue))

/-- A Go `map[string]interface{}`: the entries in the order a `range` loop visits them. -/
abbrev JObject := List (String × JValue)

/-- The Go expression `m[k]` on a `map[string]interface{}`, with its presence flag. -/
def JObject.get : JObject → String → Option JValue
  | [], _ => none
  | (key, value) :: rest, k => if key = k then some value else JObject.get rest k

/-- The serialized ownership tree of a field-manager record (`metav1.FieldsV1`). -/
structure FieldsV1 where
  Raw : String
  deriving DecidableEq, Repr

/-- One field-manager record (`metav1.ManagedFieldsEntry`); `FieldsV1` is a
pointer in Go, `none` is the nil pointer of a record without `fieldsV1`. -/
structure ManagedFieldsEntry where
  Manager : String
  FieldsV1 : Option FieldsV1
  deriving DecidableEq, Repr

/-- The `for key := range modules` loop of `extractNames`. -/
def extractNamesLoop : JObject → List String → List String
  | [], moduleNames => moduleNames
  | (key, _) :: rest, moduleNames =>
    if strings.Contains key "name" then
      let name := strings.TrimPrefix key "k:\x7b\"name\":\""
      let name := strings.Trim name "\"\x7d"
      extractNamesLoop rest (moduleNames ++ [name])
    else extractNamesLoop rest moduleNames

def extractNames (modules : JObject) : List String :=
  extractNamesLoop modules []

/-- The loop of `decodeKymaCRResponse` over the field-manager records;
`unmarshal` is `json.Unmarshal` into a `map[string]interface{}`; reading
`field.FieldsV1.Raw` through a nil pointer panics. -/
def decodeKymaCRResponseLoop (unmarshal : String → Except String JObject) :
    List ManagedFieldsEntry → List String → Result (List String)
  | [], moduleNames => Result.ok moduleNames
  | field :: rest, moduleNames =>
    match field.FieldsV1 with
    | none => Result.panic
    | some fieldsV1 =>
      match unmarshal fieldsV1.Raw with
      | Except.error err => Result.error err
      | Except.ok data =>
        match JObject.get data "f:spec" with
        | some (JValue.object spec) =>
          match JObject.get spec "f:modules" with
          | some (JValue.object modules) =>
            decodeKymaCRResponseLoop unmarshal rest (moduleNames ++ extractNames modules)
          | _ => decodeKymaCRResponseLoop unmarshal rest moduleNames
        | _ => decodeKymaCRResponseLoop unmarshal rest moduleNames

/-- Function `decodeKymaCRResponse`; `managedFields` is `unstruct.GetManagedFields()`. -/
def decodeKymaCRResponse (unmarshal : String → Except String JObject)
    (managedFields : List ManagedFieldsEntry) : Result (List String) :=
  decodeKymaCRResponseLoop unmarshal managedFields []

/-- What `kyma.GetDefaultKyma` returned: the resource, a not-found error or another error. -/
inductive KymaResponse where
  | found (managedFields : List ManagedFieldsEntry)
  | notFound
  | failure (err : String)

def getManagedList (unmarshal : String → Except String JObject) (resp : KymaResponse) :
    Result (List String) :=
  match resp with
  | KymaResponse.failure err => Result.error ("while getting Kyma CR: " ++ err)
  | KymaResponse.notFound => Result.ok []
  | KymaResponse.found managedFields =>
    match decodeKymaCRResponse unmarshal managedFields with
    | Result.panic => Result.panic
    | Result.error err => Result.error ("while getting module names from CR: " ++ err)
    | Result.ok moduleNames => Result.ok moduleNames

/-- The loop of `ManagedModules` over the managed names. -/
def ManagedModulesLoop : List String → moduleMap → moduleMap
  | [], managed => managed
  | name :: rest, managed => ManagedModulesLoop rest (moduleMap.set managed name ⟨name, "", "", "", "True"⟩)

def ManagedModules (unmarshal : String → Except String JObject) (resp : KymaResponse) :
    Result moduleMap :=
  match getManagedList unmarshal resp with
  | Result.panic => Result.panic
  | Result.error err => Result.error ("while getting managed modules: " ++ err)
  | Result.ok moduleNames => Result.ok (ManagedModulesLoop moduleNames [])

/-! ## Installed view -/

structure Container where
  Image : String
  deriving DecidableEq, Repr

/-- A workload; `Containers` is `deployment.Spec.Template.Spec.Containers`. -/
structure Deployment where
  Containers : List Container
  deriving DecidableEq, Repr

/-- What the `Get` of a deployment returned: the workload, a not-found error or another error. -/
inductive GetResult where
  | found (deployment : Deployment)
  | notFound
  | failure (err : String)
  deriving DecidableEq, Repr

/-- Function `getInstalledVersion`; `none` is an index out of range. -/
def getInstalledVersion (deployment : Deployment) : Option String :=
  match deployment.Containers[0]? with
  | none => none
  | some container =>
    let deploymentImage := strings.Split container.Image '/'
    match deploymentImage[deploymentImage.length - 1]? with
    | none => none
    | some last =>
      let nameAndTag := strings.Split last ':'
      nameAndTag[nameAndTag.length - 1]?

/-- Function `getManagerName`; `none` is an index out of range. -/
def getManagerName (version : Version) : Option String :=
  let managerPath := strings.Split version.ManagerPath '/'
  managerPath[managerPath.length - 1]?

def calculateVersion (moduleVersion : String) (installedVersion : String) : String :=
  if moduleVersion = installedVersion then installedVersion
  else "outdated moduleVersion, latest is " ++ moduleVersion

/-- The loop of `getInstalledModules`; `get namespace name` is the lookup
`Deployments(namespace).Get(ctx, name, ...)`. -/
def getInstalledModulesLoop (get : String → String → GetResult) :
    Modules → moduleMap → Result moduleMap
  | [], installed => Result.ok installed
  | module :: rest, installed =>
    match getLatestVersion module.Versions with
    | none => Result.panic
    | some latestVersion =>
      match getManagerName latestVersion with
      | none => Result.panic
      | some managerName =>
        match get "kyma-system" managerName with
        | GetResult.failure _ =>
          Result.error ("while getting the " ++ managerName ++ " deployment")
        | GetResult.notFound => getInstalledModulesLoop get rest installed
        | GetResult.found deployment =>
          match getInstalledVersion deployment with
          | none => Result.panic
          | some installedVersion =>
            let moduleVersion := latestVersion.Version
            getInstalledModulesLoop get rest
              (moduleMap.set installed module.Name
                ⟨module.Name, "", "", calculateVersion moduleVersion installedVersion, ""⟩)

def getInstalledModules (modules : Modules) (get : String → String → GetResult) :
    Result moduleMap :=
  getInstalledModulesLoop get modules []

end Communitymodules

/-! ## Module declarations of the Kyma resource (package `kyma`) -/

namespace kyma

/-- Modelled from the spec: the declaration of the struct `Module` of package
`kyma` is not among the sources (its test is); a module declaration has a
`name` and an optional `channel`, where the empty string means that there is
no channel override. -/
structure Module where
  Name : String
  Channel : String
  deriving DecidableEq, Repr

/-- Modelled from the spec: the declaration of `KymaSpec` is not among the
sources; the test builds it from a `Channel` and the list `Modules` of module
declarations. -/
structure KymaSpec where
  Channel : String
  Modules : List Module
  deriving DecidableEq, Repr

/-- Modelled from the spec: the declaration of `Kyma` is not among the sources;
of the resource only `Spec` is read by the operations on the module list. -/
structure Kyma where
  Spec : KymaSpec
  deriving DecidableEq, Repr

/-- Modelled from the spec: the replacement made by `enable`, which is not
among the sources: the channel of the first entry called `name` becomes
`channel`, in place; every other entry stays as it is. -/
def setChannel : List Module → String → String → List Module
  | [], _, _ => []
  | m :: rest, name, channel =>
    if m.Name = name then { m with Channel := channel } :: rest
    else m :: setChannel rest name channel

/-- Modelled from the spec: `enable(list, name, channel)`, whose code is not
among the sources: if an entry with `name` exists its channel is replaced by
`channel`, in place; else a new entry `{name, channel}` is appended at the
end. -/
def enable (list : List Module) (name channel : String) : List Module :=
  if list.any (fun m => decide (m.Name = name)) then setChannel list name channel
  else list ++ [⟨name, channel⟩]

/-- Modelled from the spec: `disable(list, name)`, whose code is not among the
sources: the first entry whose name matches is removed, the other entries keep
their order; a list without such an entry is returned unchanged. -/
def disable : List Module → String → List Module
  | [], _ => []
  | m :: rest, name => if m.Name = name then rest else m :: disable rest name

/-- Modelled from the spec: function `enableModule`, which the test calls and
whose code is not among the sources: `enable` on the module list of the
resource. -/
def enableModule (kymaCR : Kyma) (moduleName moduleChannel : String) : Kyma :=
  { kymaCR with
    Spec := { kymaCR.Spec with Modules := enable kymaCR.Spec.Modules moduleName moduleChannel } }

/-- Modelled from the spec: function `disableModule`, which the test calls and
whose code is not among the sources: `disable` on the module list of the
resource. -/
def disableModule (kymaCR : Kyma) (moduleName : String) : Kyma :=
  { kymaCR with Spec := { kymaCR.Spec with Modules := disable kymaCR.Spec.Modules moduleName } }

end kyma

namespace Communitymodules

/-! ## Notions used to state the properties -/

/-- What follows the last occurrence of `sep` in `s`; all of `s` when `sep`
does not occur in it. -/
def lastSegment (sep : Char) : List Char → List Char
  | [] => []
  | c :: cs => if sep ∈ cs then lastSegment sep cs else if c = sep then cs else c :: cs

/-- The tag of an image reference: the last `:`-separated segment of its last
`/`-separated segment. -/
def imageTag (image : String) : String :=
  String.mk (lastSegment ':' (lastSegment '/' image.data))

/-- The answer of the workload lookup for a module: the lookup, in namespace
`kyma-system`, of the last `/`-segment of the `managerPath` of the module's
latest version; `none` when the module has no version. -/
def managerLookup (get : String → String → GetResult) (m : Module) : Option GetResult :=
  (getLatestVersion m.Versions).map
    (fun latest => get "kyma-system" (String.mk (lastSegment '/' latest.ManagerPath.data)))

/-- The comparison of two different identifiers `dx` and `dy` made inside the
loop of `comparePrerelease`. -/
def semver.identCmp (dx dy : List Char) : Int :=
  if semver.isNum dx != semver.isNum dy then
    if semver.isNum dx then -1 else 1
  else if semver.isNum dx && dx.length < dy.length then -1
  else if semver.isNum dx && dx.length > dy.length then 1
  else if semver.strLess dx dy then -1
  else 1

/-- The names that one field-manager record contributes: those extracted from
the map under `f:spec` then `f:modules` of its decoded ownership tree; none
when the record has no tree, the tree does not decode, or it has no such map. -/
def recordNames (unmarshal : String → Except String JObject) (field : ManagedFieldsEntry) :
    List String :=
  match field.FieldsV1 with
  | none => []
  | some fieldsV1 =>
    match unmarshal fieldsV1.Raw with
    | Except.error _ => []
    | Except.ok data =>
      match JObject.get data "f:spec" with
      | some (JValue.object spec) =>
        match JObject.get spec "f:modules" with
        | some (JValue.object modules) => extractNames modules
        | _ => []
      | _ => []

/-! # Properties -/

/-! ## Facts about maps -/

theorem moduleMap.get_set_self (m : moduleMap) (k : String) (v : row) :
    moduleMap.get (moduleMap.set m k v) k = some v := by
  induction m with
  | nil => simp [moduleMap.set, moduleMap.get]
  | cons p rest ih =>
    obtain ⟨key, value⟩ := p
    by_cases h : key = k
    · simp [moduleMap.set, moduleMap.get, h]
    · simp [moduleMap.set, moduleMap.get, h, ih]

theorem moduleMap.get_set_ne (m : moduleMap) (k k2 : String) (v : row) (hne : k2 ≠ k) :
    moduleMap.get (moduleMap.set m k v) k2 = moduleMap.get m k2 := by
  induction m with
  | nil => simp [moduleMap.set, moduleMap.get, Ne.symm hne]
  | cons p rest ih =>
    obtain ⟨key, value⟩ := p
    by_cases h : key = k
    · subst h
      simp [moduleMap.set, moduleMap.get, Ne.symm hne]
    · by_cases h2 : key = k2
      · subst h2
        simp [moduleMap.set, moduleMap.get, h]
      · simp [moduleMap.set, moduleMap.get, h, h2, ih]

theorem moduleMap.mem_keys_set (m : moduleMap) (k k2 : String) (v : row) :
    k2 ∈ moduleMap.keys (moduleMap.set m k v) ↔ k2 = k ∨ k2 ∈ moduleMap.keys m := by
  induction m with
  | nil => simp [moduleMap.set, moduleMap.keys]
  | cons p rest ih =>
    obtain ⟨key, value⟩ := p
    by_cases h : key = k
    · subst h
      simp [moduleMap.set, moduleMap.keys]
    · simp only [moduleMap.keys] at ih
      simp [moduleMap.set, moduleMap.keys, h, ih]
      tauto

theorem moduleMap.nodup_keys_set (m : moduleMap) (k : String) (v : row)
    (hm : (moduleMap.keys m).Nodup) : (moduleMap.keys (moduleMap.set m k v)).Nodup := by
  induction m with
  | nil => simp [moduleMap.set, moduleMap.keys]
  | cons p rest ih =>
    obtain ⟨key, value⟩ := p
    have hm2 : key ∉ moduleMap.keys rest ∧ (moduleMap.keys rest).Nodup := by
      simpa [moduleMap.keys] using hm
    by_cases h : key = k
    · subst h
      simpa [moduleMap.set, moduleMap.keys] using hm
    · have hk : key ∉ moduleMap.keys (moduleMap.set rest k v) := by
        rw [moduleMap.mem_keys_set]
        tauto
      have := ih hm2.2
      simp only [moduleMap.keys] at hk this
      simp [moduleMap.set, moduleMap.keys, h, hk, this]

theorem moduleMap.get_isSome_iff (m : moduleMap) (k : String) :
    (moduleMap.get m k).isSome ↔ k ∈ moduleMap.keys m := by
  induction m with
  | nil => simp [moduleMap.get, moduleMap.keys]
  | cons p rest ih =>
    obtain ⟨key, value⟩ := p
    simp only [moduleMap.keys] at ih
    by_cases h : key = k
    · simp [moduleMap.get, moduleMap.keys, h]
    · simp [moduleMap.get, moduleMap.keys, h, ih, Ne.symm h]

/-! ## Catalog view -/

theorem getLatestVersion_isSome (versions : List Version) (h : versions ≠ []) :
    ∃ latest, getLatestVersion versions = some latest := by
  cases versions with
  | nil => exact absurd rfl h
  | cons v rest => exact ⟨_, rfl⟩

theorem modulesCatalogLoop_get_of_absent (modules : Modules) (catalog : moduleMap) (k : String)
    (hall : ∀ m ∈ modules, m.Versions ≠ []) (hk : ∀ m ∈ modules, m.Name ≠ k) :
    ∃ out, modulesCatalogLoop modules catalog = Result.ok out ∧
      moduleMap.get out k = moduleMap.get catalog k := by
  induction modules generalizing catalog with
  | nil => exact ⟨catalog, rfl, rfl⟩
  | cons m rest ih =>
    obtain ⟨latest, hl⟩ := getLatestVersion_isSome m.Versions (hall m (by simp))
    obtain ⟨out, h1, h2⟩ := ih (moduleMap.set catalog m.Name
      ⟨m.Name, chooseRepository m latest, latest.Version, "", ""⟩)
      (fun x hx => hall x (by simp [hx])) (fun x hx => hk x (by simp [hx]))
    refine ⟨out, ?_, ?_⟩
    · simp [modulesCatalogLoop, hl, h1]
    · rw [h2, moduleMap.get_set_ne]
      exact Ne.symm (hk m (by simp))

theorem modulesCatalogLoop_append (pre rest : Modules) (catalog : moduleMap)
    (hall : ∀ m ∈ pre, m.Versions ≠ []) :
    ∃ mid, modulesCatalogLoop (pre ++ rest) catalog = modulesCatalogLoop rest mid := by
  induction pre generalizing catalog with
  | nil => exact ⟨catalog, rfl⟩
  | cons m pre ih =>
    obtain ⟨latest, hl⟩ := getLatestVersion_isSome m.Versions (hall m (by simp))
    obtain ⟨mid, h⟩ := ih (moduleMap.set catalog m.Name
      ⟨m.Name, chooseRepository m latest, latest.Version, "", ""⟩)
      (fun x hx => hall x (by simp [hx]))
    exact ⟨mid, by simp [modulesCatalogLoop, hl, h]⟩

/-- C1: for a catalog whose modules all have a non-empty versions list, the
catalog view built by `modulesCatalog` holds, under the name of every module
that no later module of the catalog repeats, the row with that name, the
version string of the version chosen by `getLatestVersion` (unmodified) as
latestVersion, and as repository the chosen version's repository if non-empty,
else the module's repository if non-empty, else the literal "Unknown". -/
theorem modulesCatalog_row_of_module (pre post : Modules) (rec : Module)
    (hall : ∀ m ∈ pre ++ rec :: post, m.Versions ≠ [])
    (hpost : ∀ m ∈ post, m.Name ≠ rec.Name) :
    ∃ latest catalog,
      getLatestVersion rec.Versions = some latest ∧
      modulesCatalog (Except.ok (pre ++ rec :: post)) = Result.ok catalog ∧
      moduleMap.get catalog rec.Name = some
        { Name := rec.Name,
          Repository :=
            if latest.Repository ≠ "" then latest.Repository
            else if rec.Repository ≠ "" then rec.Repository
            else "Unknown",
          LatestVersion := latest.Version,
          Version := "",
          Managed := "" } := by
  obtain ⟨latest, hl⟩ := getLatestVersion_isSome rec.Versions (hall rec (by simp))
  obtain ⟨mid, hmid⟩ := modulesCatalogLoop_append pre (rec :: post) []
    (fun x hx => hall x (by simp [hx]))
  obtain ⟨out, h1, h2⟩ := modulesCatalogLoop_get_of_absent post
    (moduleMap.set mid rec.Name ⟨rec.Name, chooseRepository rec latest, latest.Version, "", ""⟩)
    rec.Name (fun x hx => hall x (by simp [hx])) hpost
  refine ⟨latest, out, hl, ?_, ?_⟩
  · simp [modulesCatalog, hmid, modulesCatalogLoop, hl, h1]
  · rw [h2, moduleMap.get_set_self]
    rfl

theorem modulesCatalog_row_of_module_witness :
    (∀ m ∈ ([] : Modules) ++ (⟨"btp", "r1", [⟨"1.0", "", ""⟩, ⟨"2.0", "r2", ""⟩]⟩ : Module) :: [],
        m.Versions ≠ []) ∧
    (∃ latest catalog,
      getLatestVersion [⟨"1.0", "", ""⟩, ⟨"2.0", "r2", ""⟩] = some latest ∧
      modulesCatalog (Except.ok [⟨"btp", "r1", [⟨"1.0", "", ""⟩, ⟨"2.0", "r2", ""⟩]⟩])
        = Result.ok catalog ∧
      moduleMap.get catalog "btp" = some
        { Name := "btp",
          Repository :=
            if latest.Repository ≠ "" then latest.Repository
            else if "r1" ≠ "" then "r1"
            else "Unknown",
          LatestVersion := latest.Version,
          Version := "",
          Managed := "" }) ∧
    modulesCatalog (Except.ok [⟨"btp", "r1", [⟨"1.0", "", ""⟩, ⟨"2.0", "r2", ""⟩]⟩])
      = Result.ok [("btp", ⟨"btp", "r2", "2.0", "", ""⟩)] :=
  ⟨by decide,
   modulesCatalog_row_of_module [] [] ⟨"btp", "r1", [⟨"1.0", "", ""⟩, ⟨"2.0", "r2", ""⟩]⟩
     (by decide) (by decide),
   by decide⟩

theorem modulesCatalogLoop_panic (modules : Modules) (catalog : moduleMap)
    (h : ∃ m ∈ modules, m.Versions = []) :
    modulesCatalogLoop modules catalog = Result.panic := by
  induction modules generalizing catalog with
  | nil => simp at h
  | cons m rest ih =>
    cases hl : getLatestVersion m.Versions with
    | none => simp [modulesCatalogLoop, hl]
    | some latest =>
      have hm : m.Versions ≠ [] := by
        intro h0
        simp [getLatestVersion, slices.MaxFunc, h0] at hl
      have hrest : ∃ x ∈ rest, x.Versions = [] := by
        obtain ⟨x, hx, hx0⟩ := h
        rcases List.mem_cons.1 hx with rfl | hx
        · exact absurd hx0 hm
        · exact ⟨x, hx, hx0⟩
      simp [modulesCatalogLoop, hl, ih _ hrest]

theorem getInstalledModulesLoop_not_ok (get : String → String → GetResult) (modules : Modules)
    (installed : moduleMap) (h : ∃ m ∈ modules, m.Versions = []) (out : moduleMap) :
    getInstalledModulesLoop get modules installed ≠ Result.ok out := by
  induction modules generalizing installed with
  | nil => simp at h
  | cons m rest ih =>
    cases hl : getLatestVersion m.Versions with
    | none => simp [getInstalledModulesLoop, hl]
    | some latest =>
      have hm : m.Versions ≠ [] := by
        intro h0
        simp [getLatestVersion, slices.MaxFunc, h0] at hl
      have hrest : ∃ x ∈ rest, x.Versions = [] := by
        obtain ⟨x, hx, hx0⟩ := h
        rcases List.mem_cons.1 hx with rfl | hx
        · exact absurd hx0 hm
        · exact ⟨x, hx, hx0⟩
      cases hn : getManagerName latest with
      | none => simp [getInstalledModulesLoop, hl, hn]
      | some managerName =>
        cases hg : get "kyma-system" managerName with
        | failure e => simp [getInstalledModulesLoop, hl, hn, hg]
        | notFound =>
          simp only [getInstalledModulesLoop, hl, hn, hg]
          exact ih _ hrest
        | found d =>
          cases hv : getInstalledVersion d with
          | none => simp [getInstalledModulesLoop, hl, hn, hg, hv]
          | some v =>
            simp only [getInstalledModulesLoop, hl, hn, hg, hv]
            exact ih _ hrest

/-- C4: what the code does on a catalog that contains a module whose versions
list is empty: `modulesCatalog` panics (inside `slices.MaxFunc`) and
`getInstalledModules` never returns a map, whatever the workload lookup
answers; the module is not skipped. -/
theorem empty_versions_not_excluded (modules : Modules) (get : String → String → GetResult)
    (h : ∃ m ∈ modules, m.Versions = []) :
    modulesCatalog (Except.ok modules) = Result.panic ∧
    ∀ out, getInstalledModules modules get ≠ Result.ok out :=
  ⟨modulesCatalogLoop_panic modules [] h,
   fun out => getInstalledModulesLoop_not_ok get modules [] h out⟩

theorem empty_versions_not_excluded_witness :
    (∃ m ∈ ([⟨"btp", "r1", [⟨"1.0", "", "a/btp-manager"⟩]⟩, ⟨"nats", "", []⟩] : Modules),
      m.Versions = []) ∧
    modulesCatalog (Except.ok [⟨"btp", "r1", [⟨"1.0", "", "a/btp-manager"⟩]⟩, ⟨"nats", "", []⟩])
      = Result.panic ∧
    (∀ out, getInstalledModules [⟨"btp", "r1", [⟨"1.0", "", "a/btp-manager"⟩]⟩, ⟨"nats", "", []⟩]
      (fun _ _ => GetResult.notFound) ≠ Result.ok out) ∧
    getInstalledModules [⟨"btp", "r1", [⟨"1.0", "", "a/btp-manager"⟩]⟩, ⟨"nats", "", []⟩]
      (fun _ _ => GetResult.notFound) = Result.panic :=
  ⟨by decide,
   (empty_versions_not_excluded _ (fun _ _ => GetResult.notFound) (by decide)).1,
   (empty_versions_not_excluded _ (fun _ _ => GetResult.notFound) (by decide)).2,
   by decide⟩

/-! ## Managed view -/

theorem extractNamesLoop_acc (modules : JObject) (acc : List String) :
    extractNamesLoop modules acc = acc ++ extractNamesLoop modules [] := by
  induction modules generalizing acc with
  | nil => simp [extractNamesLoop]
  | cons p rest ih =>
    obtain ⟨key, value⟩ := p
    by_cases h : strings.Contains key "name" = true
    · simp only [extractNamesLoop, h, if_true]
      rw [ih, ih ([] ++ _)]
      simp
    · simp only [extractNamesLoop, h]
      exact ih acc

theorem extractNames_cons (key : String) (value : JValue) (rest : JObject) :
    extractNames ((key, value) :: rest) =
      (if strings.Contains key "name" then
        [strings.Trim (strings.TrimPrefix key "k:\x7b\"name\":\"") "\"\x7d"]
      else []) ++ extractNames rest := by
  unfold extractNames
  by_cases h : strings.Contains key "name" = true
  · simp only [extractNamesLoop, h, if_true]
    rw [extractNamesLoop_acc]
    simp
  · simp [extractNamesLoop, h]

theorem extractNames_append (xs ys : JObject) :
    extractNames (xs ++ ys) = extractNames xs ++ extractNames ys := by
  induction xs with
  | nil => simp [extractNames, extractNamesLoop]
  | cons p rest ih =>
    obtain ⟨key, value⟩ := p
    simp [extractNames_cons, ih]

/-- Trimming the structural quote and brace off `n"}` gives `n` back when `n`
itself neither starts nor ends with one of them. -/
theorem trim_name_suffix (n : List Char)
    (hfirst : ∀ c, n.head? = some c → c ≠ '"' ∧ c ≠ '\x7d')
    (hlast : ∀ c, n.getLast? = some c → c ≠ '"' ∧ c ≠ '\x7d') :
    (((n ++ ['"', '\x7d']).dropWhile (fun c => ['"', '\x7d'].contains c)).reverse.dropWhile
      (fun c => ['"', '\x7d'].contains c)).reverse = n := by
  have h1 : (n ++ ['"', '\x7d']).dropWhile (fun c => ['"', '\x7d'].contains c)
      = if n = [] then [] else n ++ ['"', '\x7d'] := by
    cases n with
    | nil => simp [List.dropWhile]
    | cons c cs =>
      have := hfirst c rfl
      simp [List.dropWhile, this.1, this.2]
  rw [h1]
  by_cases hn : n = []
  · simp [hn]
  · simp only [hn, if_false]
    have h2 : (n ++ ['"', '\x7d']).reverse = '\x7d' :: '"' :: n.reverse := by simp
    rw [h2]
    cases hr : n.reverse with
    | nil => simp at hr; exact absurd hr hn
    | cons c cs =>
      have hl : n.getLast? = some c := by
        rw [List.getLast?_eq_head?_reverse, hr]; rfl
      have := hlast c hl
      have hr2 : n = (c :: cs).reverse := by rw [← hr, List.reverse_reverse]
      simp [List.dropWhile, this.1, this.2, hr2]

theorem extractNames_single_key (n : String) (value : JValue)
    (hfirst : ∀ c, n.data.head? = some c → c ≠ '"' ∧ c ≠ '\x7d')
    (hlast : ∀ c, n.data.getLast? = some c → c ≠ '"' ∧ c ≠ '\x7d') :
    extractNames [("k:\x7b\"name\":\"" ++ n ++ "\"\x7d", value)] = [n] := by
  have hc : strings.Contains ("k:\x7b\"name\":\"" ++ n ++ "\"\x7d") "name" = true := by
    simp [strings.Contains, strings.containsChars, List.isPrefixOf]
  have ht : strings.TrimPrefix ("k:\x7b\"name\":\"" ++ n ++ "\"\x7d") "k:\x7b\"name\":\""
      = n ++ "\"\x7d" := by
    simp [strings.TrimPrefix, List.isPrefixOf]
    apply String.ext
    simp
  unfold extractNames
  simp only [extractNamesLoop, hc, if_true, ht]
  have hd : (n ++ "\"\x7d").data = n.data ++ ['"', '\x7d'] := by simp
  have hk : ("\"\x7d" : String).data = ['"', '\x7d'] := rfl
  have := trim_name_suffix n.data hfirst hlast
  simp only [strings.Trim, hd, hk, this, List.nil_append]

/-- C5 (as stated, refuted): the key built by the convention for the module
name `x}` is extracted to `x`, not to `x}`. -/
theorem extractNames_brace_name :
    extractNames [("k:\x7b\"name\":\"" ++ "x\x7d" ++ "\"\x7d", JValue.null)] ≠ ["x\x7d"] := by
  decide

/-- C5 (amended): for every module name `n` that neither starts nor ends with
a double quote or a closing brace, a modules map whose only key is
`k:{"name":"n"}` is extracted to exactly `[n]`, and a single field-manager
record whose decoded tree carries that map under `f:spec` then `f:modules`
makes `decodeKymaCRResponse` return `[n]` without error. -/
theorem extractNames_key_convention (n : String) (value : JValue)
    (unmarshal : String → Except String JObject) (field : ManagedFieldsEntry)
    (fieldsV1 : FieldsV1) (data spec : JObject)
    (hfirst : ∀ c, n.data.head? = some c → c ≠ '"' ∧ c ≠ '\x7d')
    (hlast : ∀ c, n.data.getLast? = some c → c ≠ '"' ∧ c ≠ '\x7d')
    (hfields : field.FieldsV1 = some fieldsV1)
    (hraw : unmarshal fieldsV1.Raw = Except.ok data)
    (hspec : JObject.get data "f:spec" = some (JValue.object spec))
    (hmodules : JObject.get spec "f:modules" =
      some (JValue.object [("k:\x7b\"name\":\"" ++ n ++ "\"\x7d", value)])) :
    extractNames [("k:\x7b\"name\":\"" ++ n ++ "\"\x7d", value)] = [n] ∧
    decodeKymaCRResponse unmarshal [field] = Result.ok [n] := by
  have h := extractNames_single_key n value hfirst hlast
  refine ⟨h, ?_⟩
  simp [decodeKymaCRResponse, decodeKymaCRResponseLoop, hfields, hraw, hspec, hmodules, h]

theorem extractNames_key_convention_witness :
    extractNames [("k:\x7b\"name\":\"" ++ "test-module" ++ "\"\x7d", JValue.object [])]
      = ["test-module"] ∧
    decodeKymaCRResponse
      (fun _ => Except.ok [("f:spec", JValue.object [("f:modules",
        JValue.object [("k:\x7b\"name\":\"" ++ "test-module" ++ "\"\x7d", JValue.object [])])])])
      [⟨"kyma", some ⟨"raw"⟩⟩] = Result.ok ["test-module"] :=
  extractNames_key_convention "test-module" (JValue.object [])
    (fun _ => Except.ok [("f:spec", JValue.object [("f:modules",
        JValue.object [("k:\x7b\"name\":\"" ++ "test-module" ++ "\"\x7d", JValue.object [])])])])
    ⟨"kyma", some ⟨"raw"⟩⟩ ⟨"raw"⟩ _ _ (by decide) (by decide) rfl rfl rfl rfl

/-- C7 (as stated, refuted): the key `k:{"hostname":"x"}` carries no name
sub-field, yet `extractNames` returns an entry for it. -/
theorem extractNames_hostname_key :
    extractNames [("k:\x7b\"hostname\":\"x\"\x7d", JValue.object [])]
      = ["k:\x7b\"hostname\":\"x"] := by
  decide

/-- C7 (amended): `extractNames` ignores exactly the keys that do not contain
the substring `name`: the result has, in visiting order, one entry for every
key that contains `name` (the key without the prefix `k:{"name":"` and without
leading and trailing double quotes and closing braces) and nothing for any
other key; the key `.` contributes nothing. -/
theorem extractNames_eq_filterMap (modules : JObject) :
    extractNames modules =
      modules.filterMap (fun entry =>
        if strings.Contains entry.1 "name" then
          some (strings.Trim (strings.TrimPrefix entry.1 "k:\x7b\"name\":\"") "\"\x7d")
        else none) ∧
    (∀ (pre post : JObject) (key : String) (value : JValue),
      strings.Contains key "name" = false →
      extractNames (pre ++ (key, value) :: post) = extractNames (pre ++ post)) ∧
    (∀ (pre post : JObject) (value : JValue),
      extractNames (pre ++ (".", value) :: post) = extractNames (pre ++ post)) := by
  refine ⟨?_, ?_, ?_⟩
  · induction modules with
    | nil => rfl
    | cons p rest ih =>
      obtain ⟨key, value⟩ := p
      rw [extractNames_cons, ih]
      by_cases h : strings.Contains key "name" = true
      · simp [List.filterMap_cons, h]
      · simp [List.filterMap_cons, h]
  · intro pre post key value h
    rw [extractNames_append, extractNames_append, extractNames_cons]
    simp [h]
  · intro pre post value
    rw [extractNames_append, extractNames_append, extractNames_cons]
    have h : strings.Contains "." "name" = false := by decide
    simp [h]

theorem extractNames_eq_filterMap_witness :
    extractNames ([("k:\x7b\"name\":\"istio\"\x7d", JValue.object [])]
      ++ (".", JValue.object []) :: [("k:\x7b\"name\":\"nats\"\x7d", JValue.object [])])
    = extractNames ([("k:\x7b\"name\":\"istio\"\x7d", JValue.object [])]
      ++ [("k:\x7b\"name\":\"nats\"\x7d", JValue.object [])]) ∧
    extractNames ([("k:\x7b\"name\":\"istio\"\x7d", JValue.object [])]
      ++ [("k:\x7b\"name\":\"nats\"\x7d", JValue.object [])]) = ["istio", "nats"] :=
  ⟨(extractNames_eq_filterMap []).2.1 _ _ "." (JValue.object []) (by decide), by decide⟩

/-! ### Decoding the field-manager records -/

theorem decodeKymaCRResponseLoop_nil (unmarshal : String → Except String JObject)
    (f : ManagedFieldsEntry) (rest : List ManagedFieldsEntry) (acc : List String)
    (hf : f.FieldsV1 = none) :
    decodeKymaCRResponseLoop unmarshal (f :: rest) acc = Result.panic := by
  simp [decodeKymaCRResponseLoop, hf]

theorem decodeKymaCRResponseLoop_failure (unmarshal : String → Except String JObject)
    (f : ManagedFieldsEntry) (rest : List ManagedFieldsEntry) (acc : List String)
    (fieldsV1 : FieldsV1) (err : String)
    (hf : f.FieldsV1 = some fieldsV1) (hu : unmarshal fieldsV1.Raw = Except.error err) :
    decodeKymaCRResponseLoop unmarshal (f :: rest) acc = Result.error err := by
  simp [decodeKymaCRResponseLoop, hf, hu]

/-- One record that decodes: the loop goes on with the names of the record appended. -/
theorem decodeKymaCRResponseLoop_step (unmarshal : String → Except String JObject)
    (f : ManagedFieldsEntry) (rest : List ManagedFieldsEntry) (acc : List String)
    (fieldsV1 : FieldsV1) (data : JObject)
    (hf : f.FieldsV1 = some fieldsV1) (hu : unmarshal fieldsV1.Raw = Except.ok data) :
    decodeKymaCRResponseLoop unmarshal (f :: rest) acc
      = decodeKymaCRResponseLoop unmarshal rest (acc ++ recordNames unmarshal f) := by
  simp only [decodeKymaCRResponseLoop, recordNames, hf, hu]
  split
  · split
    · rfl
    · simp
  · simp

theorem decodeKymaCRResponseLoop_skip (unmarshal : String → Except String JObject)
    (f : ManagedFieldsEntry) (rest : List ManagedFieldsEntry) (acc : List String)
    (fieldsV1 : FieldsV1) (data : JObject)
    (hf : f.FieldsV1 = some fieldsV1) (hu : unmarshal fieldsV1.Raw = Except.ok data)
    (hno : ∀ spec modules, JObject.get data "f:spec" = some (JValue.object spec) →
      JObject.get spec "f:modules" ≠ some (JValue.object modules)) :
    decodeKymaCRResponseLoop unmarshal (f :: rest) acc
      = decodeKymaCRResponseLoop unmarshal rest acc := by
  simp only [decodeKymaCRResponseLoop, hf, hu]
  split
  · rename_i spec hspec
    split
    · rename_i modules hmodules
      exact absurd hmodules (hno spec modules hspec)
    · rfl
  · rfl

/-- The tree of a record that has one either decodes or fails to. -/
theorem unmarshal_cases (unmarshal : String → Except String JObject) (f : ManagedFieldsEntry)
    (hf : f.FieldsV1 ≠ none) :
    ∃ fieldsV1, f.FieldsV1 = some fieldsV1 ∧
      ((∃ err, unmarshal fieldsV1.Raw = Except.error err) ∨
       (∃ data, unmarshal fieldsV1.Raw = Except.ok data)) := by
  cases h : f.FieldsV1 with
  | none => exact absurd h hf
  | some fieldsV1 =>
    refine ⟨fieldsV1, rfl, ?_⟩
    cases unmarshal fieldsV1.Raw with
    | error e => exact Or.inl ⟨e, rfl⟩
    | ok data => exact Or.inr ⟨data, rfl⟩

theorem decodeKymaCRResponseLoop_error_iff (unmarshal : String → Except String JObject)
    (fields : List ManagedFieldsEntry) (acc : List String)
    (hset : ∀ f ∈ fields, f.FieldsV1 ≠ none) :
    (∃ err, decodeKymaCRResponseLoop unmarshal fields acc = Result.error err) ↔
      ∃ f ∈ fields, ∃ fieldsV1 err, f.FieldsV1 = some fieldsV1 ∧
        unmarshal fieldsV1.Raw = Except.error err := by
  induction fields generalizing acc with
  | nil => simp [decodeKymaCRResponseLoop]
  | cons f rest ih =>
    obtain ⟨fieldsV1, hf, ⟨e, hu⟩ | ⟨data, hu⟩⟩ := unmarshal_cases unmarshal f (hset f (by simp))
    · rw [decodeKymaCRResponseLoop_failure unmarshal f rest acc fieldsV1 e hf hu]
      exact ⟨fun _ => ⟨f, by simp, fieldsV1, e, hf, hu⟩, fun _ => ⟨e, rfl⟩⟩
    · rw [decodeKymaCRResponseLoop_step unmarshal f rest acc fieldsV1 data hf hu,
        ih _ (fun g hg => hset g (by simp [hg]))]
      constructor
      · rintro ⟨g, hg, v, e, hv, he⟩
        exact ⟨g, by simp [hg], v, e, hv, he⟩
      · rintro ⟨g, hg, v, e, hv, he⟩
        rcases List.mem_cons.1 hg with rfl | hg
        · rw [hf] at hv
          cases hv
          rw [hu] at he
          cases he
        · exact ⟨g, hg, v, e, hv, he⟩

/-- When every record has a tree and every tree decodes, the loop returns the
names it started with followed by the names of each record, in order. -/
theorem decodeKymaCRResponseLoop_ok (unmarshal : String → Except String JObject)
    (fields : List ManagedFieldsEntry) (acc : List String)
    (hset : ∀ f ∈ fields, f.FieldsV1 ≠ none)
    (hok : ¬ ∃ f ∈ fields, ∃ fieldsV1 err, f.FieldsV1 = some fieldsV1 ∧
      unmarshal fieldsV1.Raw = Except.error err) :
    decodeKymaCRResponseLoop unmarshal fields acc
      = Result.ok (acc ++ (fields.map (recordNames unmarshal)).flatten) := by
  induction fields generalizing acc with
  | nil => simp [decodeKymaCRResponseLoop]
  | cons f rest ih =>
    obtain ⟨fieldsV1, hf, ⟨e, hu⟩ | ⟨data, hu⟩⟩ := unmarshal_cases unmarshal f (hset f (by simp))
    · exact absurd ⟨f, by simp, fieldsV1, e, hf, hu⟩ hok
    · rw [decodeKymaCRResponseLoop_step unmarshal f rest acc fieldsV1 data hf hu,
        ih _ (fun g hg => hset g (by simp [hg]))
          (fun ⟨g, hg, v, e, hv, he⟩ => hok ⟨g, by simp [hg], v, e, hv, he⟩)]
      simp

/-- Whatever the records are, a list of names that the loop returns is the
names it started with followed by the names of each record, in order. -/
theorem decodeKymaCRResponseLoop_names (unmarshal : String → Except String JObject)
    (fields : List ManagedFieldsEntry) (acc names : List String)
    (h : decodeKymaCRResponseLoop unmarshal fields acc = Result.ok names) :
    names = acc ++ (fields.map (recordNames unmarshal)).flatten := by
  induction fields generalizing acc with
  | nil =>
    simp only [decodeKymaCRResponseLoop, Result.ok.injEq] at h
    simp [h]
  | cons f rest ih =>
    cases hf : f.FieldsV1 with
    | none =>
      rw [decodeKymaCRResponseLoop_nil unmarshal f rest acc hf] at h
      cases h
    | some fieldsV1 =>
      cases hu : unmarshal fieldsV1.Raw with
      | error e =>
        rw [decodeKymaCRResponseLoop_failure unmarshal f rest acc fieldsV1 e hf hu] at h
        cases h
      | ok data =>
        rw [decodeKymaCRResponseLoop_step unmarshal f rest acc fieldsV1 data hf hu] at h
        rw [ih _ h]
        simp

theorem decodeKymaCRResponseLoop_no_spec (unmarshal : String → Except String JObject)
    (fields : List ManagedFieldsEntry) (acc : List String)
    (h : ∀ f ∈ fields, ∃ fieldsV1 data, f.FieldsV1 = some fieldsV1 ∧
      unmarshal fieldsV1.Raw = Except.ok data ∧ JObject.get data "f:spec" = none) :
    decodeKymaCRResponseLoop unmarshal fields acc = Result.ok acc := by
  induction fields with
  | nil => rfl
  | cons f rest ih =>
    obtain ⟨fieldsV1, data, hf, hu, hs⟩ := h f (by simp)
    rw [decodeKymaCRResponseLoop_skip unmarshal f rest acc fieldsV1 data hf hu
      (fun spec modules hspec => by rw [hs] at hspec; cases hspec)]
    exact ih (fun g hg => h g (by simp [hg]))

/-- C8: on field-manager records that each carry a serialized ownership tree
(`FieldsV1` set, the input the spec describes), `decodeKymaCRResponse` returns
an error (and with it no names) if and only if `json.Unmarshal` fails on the
tree of some record, and otherwise it returns a list of names; a record whose
tree decodes but has no object under `f:spec`, or no object under `f:modules`
inside it, is skipped and contributes no names; when every record decodes and
lacks `f:spec` the result is the empty list and no error.  A record without a
tree is outside this statement: reading `field.FieldsV1.Raw` panics there. -/
theorem decodeKymaCRResponse_error_iff (unmarshal : String → Except String JObject)
    (fields : List ManagedFieldsEntry) (hset : ∀ f ∈ fields, f.FieldsV1 ≠ none) :
    ((∃ err, decodeKymaCRResponse unmarshal fields = Result.error err) ↔
      ∃ f ∈ fields, ∃ fieldsV1 err, f.FieldsV1 = some fieldsV1 ∧
        unmarshal fieldsV1.Raw = Except.error err) ∧
    ((¬ ∃ f ∈ fields, ∃ fieldsV1 err, f.FieldsV1 = some fieldsV1 ∧
        unmarshal fieldsV1.Raw = Except.error err) →
      decodeKymaCRResponse unmarshal fields
        = Result.ok ((fields.map (recordNames unmarshal)).flatten)) ∧
    (∀ (f : ManagedFieldsEntry) (rest : List ManagedFieldsEntry) (acc : List String)
        (fieldsV1 : FieldsV1) (data : JObject),
      f.FieldsV1 = some fieldsV1 → unmarshal fieldsV1.Raw = Except.ok data →
      (∀ spec modules, JObject.get data "f:spec" = some (JValue.object spec) →
        JObject.get spec "f:modules" ≠ some (JValue.object modules)) →
      recordNames unmarshal f = [] ∧
      decodeKymaCRResponseLoop unmarshal (f :: rest) acc
        = decodeKymaCRResponseLoop unmarshal rest acc) ∧
    ((∀ f ∈ fields, ∃ fieldsV1 data, f.FieldsV1 = some fieldsV1 ∧
        unmarshal fieldsV1.Raw = Except.ok data ∧ JObject.get data "f:spec" = none) →
      decodeKymaCRResponse unmarshal fields = Result.ok []) ∧
    (∀ (f : ManagedFieldsEntry) (rest : List ManagedFieldsEntry) (acc : List String),
      f.FieldsV1 = none →
      decodeKymaCRResponseLoop unmarshal (f :: rest) acc = Result.panic) := by
  refine ⟨decodeKymaCRResponseLoop_error_iff unmarshal fields [] hset, ?_, ?_,
    fun h => decodeKymaCRResponseLoop_no_spec unmarshal fields [] h,
    fun f rest acc hf => decodeKymaCRResponseLoop_nil unmarshal f rest acc hf⟩
  · intro hok
    have := decodeKymaCRResponseLoop_ok unmarshal fields [] hset hok
    simpa [decodeKymaCRResponse] using this
  · intro f rest acc fieldsV1 data hf hu hno
    refine ⟨?_, decodeKymaCRResponseLoop_skip unmarshal f rest acc fieldsV1 data hf hu hno⟩
    simp only [recordNames, hf, hu]
    split
    · rename_i spec hspec
      split
      · rename_i modules hmodules
        exact absurd hmodules (hno spec modules hspec)
      · rfl
    · rfl

theorem decodeKymaCRResponse_error_iff_witness :
    (∀ f ∈ ([⟨"kubectl", some ⟨"ok"⟩⟩, ⟨"lifecycle-manager", some ⟨"ok"⟩⟩] :
      List ManagedFieldsEntry), f.FieldsV1 ≠ none) ∧
    decodeKymaCRResponse
      (fun raw => if raw = "bad" then Except.error "unexpected end of JSON input"
        else Except.ok [("f:metadata", JValue.object [])])
      [⟨"kubectl", some ⟨"ok"⟩⟩, ⟨"lifecycle-manager", some ⟨"ok"⟩⟩] = Result.ok [] ∧
    (∃ err, decodeKymaCRResponse
      (fun raw => if raw = "bad" then Except.error "unexpected end of JSON input"
        else Except.ok [("f:metadata", JValue.object [])])
      [⟨"kubectl", some ⟨"ok"⟩⟩, ⟨"lifecycle-manager", some ⟨"bad"⟩⟩] = Result.error err) :=
  ⟨by decide,
   (decodeKymaCRResponse_error_iff _
      [⟨"kubectl", some ⟨"ok"⟩⟩, ⟨"lifecycle-manager", some ⟨"ok"⟩⟩] (by decide)).2.2.2.1
      (by
        intro f hf
        refine ⟨⟨"ok"⟩, [("f:metadata", JValue.object [])], ?_, rfl, rfl⟩
        simp at hf
        rcases hf with rfl | rfl <;> rfl),
   (decodeKymaCRResponse_error_iff _
      [⟨"kubectl", some ⟨"ok"⟩⟩, ⟨"lifecycle-manager", some ⟨"bad"⟩⟩] (by decide)).1.2
      ⟨⟨"lifecycle-manager", some ⟨"bad"⟩⟩, by simp, ⟨"bad"⟩,
        "unexpected end of JSON input", rfl, rfl⟩⟩

/-- C6 (as stated, refuted): when two field-manager records own the same
module key, the list returned by `decodeKymaCRResponse` has the name twice. -/
theorem decodeKymaCRResponse_repeats_name :
    decodeKymaCRResponse
      (fun _ => Except.ok [("f:spec", JValue.object [("f:modules",
        JValue.object [("k:\x7b\"name\":\"istio\"\x7d", JValue.object [])])])])
      [⟨"kubectl", some ⟨"a"⟩⟩, ⟨"kyma", some ⟨"b"⟩⟩] = Result.ok ["istio", "istio"] ∧
    ¬ (["istio", "istio"] : List String).Nodup := by
  constructor
  · rfl
  · decide

theorem ManagedModulesLoop_spec (names : List String) (managed : moduleMap)
    (hm : (moduleMap.keys managed).Nodup) :
    (moduleMap.keys (ManagedModulesLoop names managed)).Nodup ∧
    (∀ k, k ∈ moduleMap.keys (ManagedModulesLoop names managed) ↔
      k ∈ moduleMap.keys managed ∨ k ∈ names) ∧
    (∀ k ∈ names, moduleMap.get (ManagedModulesLoop names managed) k
      = some ⟨k, "", "", "", "True"⟩) ∧
    (∀ k, k ∉ names → moduleMap.get (ManagedModulesLoop names managed) k
      = moduleMap.get managed k) := by
  induction names generalizing managed with
  | nil => simp [ManagedModulesLoop, hm]
  | cons n rest ih =>
    obtain ⟨h1, h2, h3, h4⟩ := ih (moduleMap.set managed n ⟨n, "", "", "", "True"⟩)
      (moduleMap.nodup_keys_set managed n _ hm)
    refine ⟨h1, ?_, ?_, ?_⟩
    · intro k
      simp only [ManagedModulesLoop]
      rw [h2, moduleMap.mem_keys_set]
      simp only [List.mem_cons]
      tauto
    · intro k hk
      simp only [ManagedModulesLoop]
      by_cases hr : k ∈ rest
      · exact h3 k hr
      · rw [h4 k hr]
        have : k = n := by
          rcases List.mem_cons.1 hk with h | h
          · exact h
          · exact absurd h hr
        subst this
        exact moduleMap.get_set_self _ _ _
    · intro k hk
      simp only [ManagedModulesLoop]
      have hk2 : k ≠ n ∧ k ∉ rest := by simpa using hk
      rw [h4 k hk2.2, moduleMap.get_set_ne _ _ _ _ hk2.1]

/-- C6 (amended): the list returned by `decodeKymaCRResponse` is the names of
each record one after the other, so it may repeat a name; the managed view
that `ManagedModules` builds from it is keyed by name: whenever the names
decode, `ManagedModules` returns a map that has every name of the list as a
key exactly once, no other key, and under each key the row with that name and
`Managed = "True"`. -/
theorem ManagedModules_keys_nodup (unmarshal : String → Except String JObject)
    (managedFields : List ManagedFieldsEntry) (names : List String)
    (h : decodeKymaCRResponse unmarshal managedFields = Result.ok names) :
    names = (managedFields.map (recordNames unmarshal)).flatten ∧
    ∃ managed, ManagedModules unmarshal (KymaResponse.found managedFields) = Result.ok managed ∧
      (moduleMap.keys managed).Nodup ∧
      (∀ k, k ∈ moduleMap.keys managed ↔ k ∈ names) ∧
      (∀ k ∈ names, moduleMap.get managed k = some ⟨k, "", "", "", "True"⟩) := by
  obtain ⟨h1, h2, h3, _⟩ := ManagedModulesLoop_spec names [] (by simp [moduleMap.keys])
  refine ⟨?_, ManagedModulesLoop names [], ?_, h1, ?_, h3⟩
  · have := decodeKymaCRResponseLoop_names unmarshal managedFields [] names h
    simpa using this
  · simp [ManagedModules, getManagedList, h]
  · intro k
    rw [h2]
    simp [moduleMap.keys]

theorem ManagedModules_keys_nodup_witness :
    ["istio", "istio"] = (([⟨"kubectl", some ⟨"a"⟩⟩, ⟨"kyma", some ⟨"b"⟩⟩] :
        List ManagedFieldsEntry).map
      (recordNames (fun _ => Except.ok [("f:spec", JValue.object [("f:modules",
        JValue.object [("k:\x7b\"name\":\"istio\"\x7d", JValue.object [])])])]))).flatten ∧
    ∃ managed, ManagedModules
      (fun _ => Except.ok [("f:spec", JValue.object [("f:modules",
        JValue.object [("k:\x7b\"name\":\"istio\"\x7d", JValue.object [])])])])
      (KymaResponse.found [⟨"kubectl", some ⟨"a"⟩⟩, ⟨"kyma", some ⟨"b"⟩⟩]) = Result.ok managed ∧
      (moduleMap.keys managed).Nodup ∧
      (∀ k, k ∈ moduleMap.keys managed ↔ k ∈ ["istio", "istio"]) ∧
      (∀ k ∈ ["istio", "istio"], moduleMap.get managed k = some ⟨k, "", "", "", "True"⟩) :=
  ManagedModules_keys_nodup _ [⟨"kubectl", some ⟨"a"⟩⟩, ⟨"kyma", some ⟨"b"⟩⟩]
    ["istio", "istio"] rfl

/-! ## Installed view -/

/-- The segment `lastSegment sep s` has no `sep` in it and is either all of
`s` or what follows a `sep` in `s`. -/
theorem lastSegment_spec (sep : Char) (s : List Char) :
    sep ∉ lastSegment sep s ∧
    (s = lastSegment sep s ∨ ∃ pre, s = pre ++ sep :: lastSegment sep s) := by
  induction s with
  | nil => simp [lastSegment]
  | cons c cs ih =>
    by_cases hcs : sep ∈ cs
    · have e : lastSegment sep (c :: cs) = lastSegment sep cs := by simp [lastSegment, hcs]
      rw [e]
      refine ⟨ih.1, Or.inr ?_⟩
      rcases ih.2 with h | ⟨pre, h⟩
      · rw [← h] at ih
        exact absurd hcs ih.1
      · exact ⟨c :: pre, by rw [List.cons_append, ← h]⟩
    · by_cases hc : c = sep
      · have e : lastSegment sep (c :: cs) = cs := by simp [lastSegment, hcs, hc]
        rw [e, hc]
        exact ⟨hcs, Or.inr ⟨[], rfl⟩⟩
      · have e : lastSegment sep (c :: cs) = c :: cs := by simp [lastSegment, hcs, hc]
        rw [e]
        refine ⟨?_, Or.inl rfl⟩
        intro h
        rcases List.mem_cons.1 h with h | h
        · exact hc h.symm
        · exact hcs h

theorem strings.splitChars_ne_nil (sep : Char) (s : List Char) :
    strings.splitChars sep s ≠ [] := by
  cases s with
  | nil => simp [strings.splitChars]
  | cons c cs =>
    simp only [strings.splitChars]
    split
    · simp
    · split <;> simp

theorem strings.splitChars_of_not_mem (sep : Char) (s : List Char) (h : sep ∉ s) :
    strings.splitChars sep s = [s] := by
  induction s with
  | nil => rfl
  | cons c cs ih =>
    have hc : ¬ c = sep := fun e => h (by simp [e])
    have hcs : sep ∉ cs := fun e => h (by simp [e])
    simp [strings.splitChars, hc, ih hcs]

theorem strings.splitChars_of_mem (sep : Char) (s : List Char) (h : sep ∈ s) :
    ∃ seg next segs, strings.splitChars sep s = seg :: next :: segs := by
  induction s with
  | nil => simp at h
  | cons c cs ih =>
    by_cases hc : c = sep
    · cases hs : strings.splitChars sep cs with
      | nil => exact absurd hs (strings.splitChars_ne_nil sep cs)
      | cons x xs => exact ⟨[], x, xs, by simp [strings.splitChars, hc, hs]⟩
    · have hcs : sep ∈ cs := by
        rcases List.mem_cons.1 h with e | e
        · exact absurd e.symm hc
        · exact e
      obtain ⟨seg, next, segs, hs⟩ := ih hcs
      exact ⟨c :: seg, next, segs, by simp [strings.splitChars, hc, hs]⟩

theorem strings.splitChars_getLast? (sep : Char) (s : List Char) :
    (strings.splitChars sep s).getLast? = some (lastSegment sep s) := by
  induction s with
  | nil => simp [strings.splitChars, lastSegment]
  | cons c cs ih =>
    by_cases hcs : sep ∈ cs
    · obtain ⟨seg, next, segs, hs⟩ := strings.splitChars_of_mem sep cs hcs
      rw [hs] at ih
      by_cases hc : c = sep
      · simp only [strings.splitChars, hc, if_true, lastSegment, hcs, hs]
        rw [← ih]
        simp [List.getLast?_cons_cons]
      · simp only [strings.splitChars, hc, if_false, lastSegment, hcs, hs, if_true]
        rw [← ih]
        simp [List.getLast?_cons_cons]
    · have hs := strings.splitChars_of_not_mem sep cs hcs
      by_cases hc : c = sep
      · simp [strings.splitChars, hc, lastSegment, hcs, hs, List.getLast?_cons_cons]
      · simp [strings.splitChars, hc, lastSegment, hcs, hs]

theorem strings.Split_last (s : String) (sep : Char) :
    (strings.Split s sep)[(strings.Split s sep).length - 1]?
      = some (String.mk (lastSegment sep s.data)) := by
  rw [← List.getLast?_eq_getElem?]
  simp [strings.Split, List.getLast?_map, strings.splitChars_getLast?]

theorem getManagerName_eq (version : Version) :
    getManagerName version = some (String.mk (lastSegment '/' version.ManagerPath.data)) := by
  simp [getManagerName, strings.Split_last]

theorem getInstalledVersion_eq (image : String) (others : List Container) :
    getInstalledVersion ⟨⟨image⟩ :: others⟩ = some (imageTag image) := by
  simp [getInstalledVersion, strings.Split_last, imageTag]

theorem getInstalledVersion_isSome (deployment : Deployment) (h : deployment.Containers ≠ []) :
    ∃ v, getInstalledVersion deployment = some v := by
  obtain ⟨containers⟩ := deployment
  cases containers with
  | nil => exact absurd rfl h
  | cons c cs =>
    obtain ⟨image⟩ := c
    exact ⟨_, getInstalledVersion_eq image cs⟩

theorem getInstalledModulesLoop_notFound (get : String → String → GetResult) (m : Module)
    (rest : Modules) (acc : moduleMap)
    (h : managerLookup get m = some GetResult.notFound) :
    getInstalledModulesLoop get (m :: rest) acc = getInstalledModulesLoop get rest acc := by
  cases hl : getLatestVersion m.Versions with
  | none => simp [managerLookup, hl] at h
  | some latest =>
    simp only [managerLookup, hl, Option.map_some', Option.some.injEq] at h
    simp [getInstalledModulesLoop, hl, getManagerName_eq, h]

theorem getInstalledModulesLoop_failure (get : String → String → GetResult) (m : Module)
    (rest : Modules) (acc : moduleMap) (e : String)
    (h : managerLookup get m = some (GetResult.failure e)) :
    ∃ msg, getInstalledModulesLoop get (m :: rest) acc = Result.error msg := by
  cases hl : getLatestVersion m.Versions with
  | none => simp [managerLookup, hl] at h
  | some latest =>
    simp only [managerLookup, hl, Option.map_some', Option.some.injEq] at h
    refine ⟨"while getting the " ++ String.mk (lastSegment '/' latest.ManagerPath.data)
      ++ " deployment", ?_⟩
    simp [getInstalledModulesLoop, hl, getManagerName_eq, h]

theorem getInstalledModulesLoop_found (get : String → String → GetResult) (m : Module)
    (rest : Modules) (acc : moduleMap) (latest : Version) (d : Deployment) (v : String)
    (hl : getLatestVersion m.Versions = some latest)
    (h : managerLookup get m = some (GetResult.found d))
    (hv : getInstalledVersion d = some v) :
    getInstalledModulesLoop get (m :: rest) acc =
      getInstalledModulesLoop get rest
        (moduleMap.set acc m.Name ⟨m.Name, "", "", calculateVersion latest.Version v, ""⟩) := by
  simp only [managerLookup, hl, Option.map_some', Option.some.injEq] at h
  simp [getInstalledModulesLoop, hl, getManagerName_eq, h, hv]

/-- The three answers a lookup can give for a module that has a version. -/
theorem managerLookup_cases (get : String → String → GetResult) (m : Module)
    (hm : m.Versions ≠ []) :
    managerLookup get m = some GetResult.notFound ∨
    (∃ e, managerLookup get m = some (GetResult.failure e)) ∨
    (∃ d, managerLookup get m = some (GetResult.found d)) := by
  obtain ⟨latest, hl⟩ := getLatestVersion_isSome m.Versions hm
  simp only [managerLookup, hl, Option.map_some', Option.some.injEq]
  cases get "kyma-system" (String.mk (lastSegment '/' latest.ManagerPath.data)) with
  | notFound => simp
  | failure e => simp
  | found d => simp

/-- The loop of `getInstalledModules` when no lookup fails. -/
theorem getInstalledModulesLoop_ok (get : String → String → GetResult) (modules : Modules)
    (acc : moduleMap)
    (hall : ∀ m ∈ modules, m.Versions ≠ [])
    (hcont : ∀ ns name d, get ns name = GetResult.found d → d.Containers ≠ [])
    (hfail : ¬ ∃ m ∈ modules, ∃ e, managerLookup get m = some (GetResult.failure e)) :
    ∃ out, getInstalledModulesLoop get modules acc = Result.ok out ∧
      ((moduleMap.keys acc).Nodup → (moduleMap.keys out).Nodup) ∧
      (∀ k, k ∈ moduleMap.keys out ↔ k ∈ moduleMap.keys acc ∨
        ∃ m ∈ modules, m.Name = k ∧ ∃ d, managerLookup get m = some (GetResult.found d)) ∧
      (∀ k, (∀ m ∈ modules, m.Name ≠ k) → moduleMap.get out k = moduleMap.get acc k) := by
  induction modules generalizing acc with
  | nil => exact ⟨acc, rfl, id, by simp, fun _ _ => rfl⟩
  | cons m rest ih =>
    have hall2 : ∀ x ∈ rest, x.Versions ≠ [] := fun x hx => hall x (by simp [hx])
    have hfail2 : ¬ ∃ x ∈ rest, ∃ e, managerLookup get x = some (GetResult.failure e) := by
      rintro ⟨x, hx, e, he⟩
      exact hfail ⟨x, by simp [hx], e, he⟩
    rcases managerLookup_cases get m (hall m (by simp)) with hnf | ⟨e, he⟩ | ⟨d, hd⟩
    · obtain ⟨out, h1, h2, h3, h4⟩ := ih acc hall2 hfail2
      refine ⟨out, ?_, h2, ?_, ?_⟩
      · rw [getInstalledModulesLoop_notFound get m rest acc hnf, h1]
      · intro k
        rw [h3]
        constructor
        · rintro (h | ⟨x, hx, hk, hd⟩)
          · exact Or.inl h
          · exact Or.inr ⟨x, by simp [hx], hk, hd⟩
        · rintro (h | ⟨x, hx, hk, d, hd⟩)
          · exact Or.inl h
          · rcases List.mem_cons.1 hx with rfl | hx
            · rw [hnf] at hd; cases hd
            · exact Or.inr ⟨x, hx, hk, d, hd⟩
      · intro k hk
        exact h4 k (fun x hx => hk x (by simp [hx]))
    · exact absurd ⟨m, by simp, e, he⟩ hfail
    · obtain ⟨latest, hl⟩ := getLatestVersion_isSome m.Versions (hall m (by simp))
      have hget : get "kyma-system" (String.mk (lastSegment '/' latest.ManagerPath.data))
          = GetResult.found d := by
        simpa [managerLookup, hl] using hd
      obtain ⟨v, hv⟩ := getInstalledVersion_isSome d (hcont _ _ d hget)
      obtain ⟨out, h1, h2, h3, h4⟩ := ih
        (moduleMap.set acc m.Name ⟨m.Name, "", "", calculateVersion latest.Version v, ""⟩)
        hall2 hfail2
      refine ⟨out, ?_, ?_, ?_, ?_⟩
      · rw [getInstalledModulesLoop_found get m rest acc latest d v hl hd hv, h1]
      · intro hacc
        exact h2 (moduleMap.nodup_keys_set acc _ _ hacc)
      · intro k
        rw [h3, moduleMap.mem_keys_set]
        constructor
        · rintro ((h | h) | ⟨x, hx, hk, hd2⟩)
          · exact Or.inr ⟨m, by simp, h.symm, d, hd⟩
          · exact Or.inl h
          · exact Or.inr ⟨x, by simp [hx], hk, hd2⟩
        · rintro (h | ⟨x, hx, hk, d2, hd2⟩)
          · exact Or.inl (Or.inr h)
          · rcases List.mem_cons.1 hx with rfl | hx
            · exact Or.inl (Or.inl hk.symm)
            · exact Or.inr ⟨x, hx, hk, d2, hd2⟩
      · intro k hk
        rw [h4 k (fun x hx => hk x (by simp [hx])), moduleMap.get_set_ne]
        exact Ne.symm (hk m (by simp))

/-- The loop of `getInstalledModules` returns an error exactly when a lookup fails. -/
theorem getInstalledModulesLoop_error_iff (get : String → String → GetResult)
    (modules : Modules) (acc : moduleMap)
    (hall : ∀ m ∈ modules, m.Versions ≠ [])
    (hcont : ∀ ns name d, get ns name = GetResult.found d → d.Containers ≠ []) :
    (∃ msg, getInstalledModulesLoop get modules acc = Result.error msg) ↔
      ∃ m ∈ modules, ∃ e, managerLookup get m = some (GetResult.failure e) := by
  induction modules generalizing acc with
  | nil => simp [getInstalledModulesLoop]
  | cons m rest ih =>
    have hall2 : ∀ x ∈ rest, x.Versions ≠ [] := fun x hx => hall x (by simp [hx])
    rcases managerLookup_cases get m (hall m (by simp)) with hnf | ⟨e, he⟩ | ⟨d, hd⟩
    · rw [getInstalledModulesLoop_notFound get m rest acc hnf, ih acc hall2]
      constructor
      · rintro ⟨x, hx, e, he⟩
        exact ⟨x, by simp [hx], e, he⟩
      · rintro ⟨x, hx, e, he⟩
        rcases List.mem_cons.1 hx with rfl | hx
        · rw [hnf] at he; cases he
        · exact ⟨x, hx, e, he⟩
    · exact ⟨fun _ => ⟨m, by simp, e, he⟩,
        fun _ => getInstalledModulesLoop_failure get m rest acc e he⟩
    · obtain ⟨latest, hl⟩ := getLatestVersion_isSome m.Versions (hall m (by simp))
      have hget : get "kyma-system" (String.mk (lastSegment '/' latest.ManagerPath.data))
          = GetResult.found d := by
        simpa [managerLookup, hl] using hd
      obtain ⟨v, hv⟩ := getInstalledVersion_isSome d (hcont _ _ d hget)
      rw [getInstalledModulesLoop_found get m rest acc latest d v hl hd hv, ih _ hall2]
      constructor
      · rintro ⟨x, hx, e, he⟩
        exact ⟨x, by simp [hx], e, he⟩
      · rintro ⟨x, hx, e, he⟩
        rcases List.mem_cons.1 hx with rfl | hx
        · rw [hd] at he; cases he
        · exact ⟨x, hx, e, he⟩

theorem getInstalledModulesLoop_append (get : String → String → GetResult)
    (pre rest : Modules) (acc mid : moduleMap)
    (h : getInstalledModulesLoop get pre acc = Result.ok mid) :
    getInstalledModulesLoop get (pre ++ rest) acc = getInstalledModulesLoop get rest mid := by
  induction pre generalizing acc with
  | nil =>
    simp only [getInstalledModulesLoop, Result.ok.injEq] at h
    simp [h]
  | cons m pre ih =>
    cases hl : getLatestVersion m.Versions with
    | none => simp [getInstalledModulesLoop, hl] at h
    | some latest =>
      cases hn : getManagerName latest with
      | none => simp [getInstalledModulesLoop, hl, hn] at h
      | some managerName =>
        cases hg : get "kyma-system" managerName with
        | failure e => simp [getInstalledModulesLoop, hl, hn, hg] at h
        | notFound =>
          simp only [getInstalledModulesLoop, hl, hn, hg, List.cons_append] at h ⊢
          exact ih acc h
        | found d =>
          cases hv : getInstalledVersion d with
          | none => simp [getInstalledModulesLoop, hl, hn, hg, hv] at h
          | some v =>
            simp only [getInstalledModulesLoop, hl, hn, hg, hv, List.cons_append] at h ⊢
            exact ih _ h

/-- C9: when the probe runs over a catalog whose modules all have versions and
no lookup fails, a module whose manager workload is found with first container
image `I`, and whose name no later module repeats, gets the row whose version
is `calculateVersion L (tag I)`, where `L` is the version string of its latest
catalog version and `tag I` (the value of `getInstalledVersion`) is the last
`:`-segment of the last `/`-segment of `I`; that version is `tag I` when
`tag I = L` as strings, and otherwise the string
`outdated moduleVersion, latest is ` followed by `L`. -/
theorem installed_row_version (pre post : Modules) (m : Module)
    (get : String → String → GetResult) (latest : Version) (I : String)
    (others : List Container)
    (hall : ∀ x ∈ pre ++ m :: post, x.Versions ≠ [])
    (hcont : ∀ ns name d, get ns name = GetResult.found d → d.Containers ≠ [])
    (hfail : ¬ ∃ x ∈ pre ++ m :: post, ∃ e, managerLookup get x = some (GetResult.failure e))
    (hlatest : getLatestVersion m.Versions = some latest)
    (hfound : managerLookup get m = some (GetResult.found ⟨⟨I⟩ :: others⟩))
    (hpost : ∀ x ∈ post, x.Name ≠ m.Name) :
    getInstalledVersion ⟨⟨I⟩ :: others⟩ = some (imageTag I) ∧
    (∃ installed, getInstalledModules (pre ++ m :: post) get = Result.ok installed ∧
      moduleMap.get installed m.Name
        = some ⟨m.Name, "", "", calculateVersion latest.Version (imageTag I), ""⟩) ∧
    (imageTag I = latest.Version → calculateVersion latest.Version (imageTag I) = imageTag I) ∧
    (imageTag I ≠ latest.Version → calculateVersion latest.Version (imageTag I)
      = "outdated moduleVersion, latest is " ++ latest.Version) := by
  refine ⟨getInstalledVersion_eq I others, ?_, ?_, ?_⟩
  · obtain ⟨mid, hmid, -, -, -⟩ := getInstalledModulesLoop_ok get pre []
      (fun x hx => hall x (by simp [hx])) hcont
      (fun ⟨x, hx, e, he⟩ => hfail ⟨x, by simp [hx], e, he⟩)
    obtain ⟨out, hout, -, -, hget⟩ := getInstalledModulesLoop_ok get post
      (moduleMap.set mid m.Name
        ⟨m.Name, "", "", calculateVersion latest.Version (imageTag I), ""⟩)
      (fun x hx => hall x (by simp [hx])) hcont
      (fun ⟨x, hx, e, he⟩ => hfail ⟨x, by simp [hx], e, he⟩)
    refine ⟨out, ?_, ?_⟩
    · unfold getInstalledModules
      rw [getInstalledModulesLoop_append get pre (m :: post) [] mid hmid,
        getInstalledModulesLoop_found get m post mid latest _ _ hlatest hfound
          (getInstalledVersion_eq I others), hout]
    · rw [hget m.Name hpost, moduleMap.get_set_self]
  · intro h
    simp [calculateVersion, h]
  · intro h
    simp [calculateVersion, Ne.symm h]

theorem installed_row_version_witness :
    (getInstalledVersion ⟨⟨"registry/path/mod:1.2.3"⟩ :: []⟩ = some "1.2.3" ∧
      getInstalledModules [⟨"mod", "", [⟨"1.2.3", "", "kyma/mod-manager"⟩]⟩]
          (fun _ name => if name = "mod-manager"
            then GetResult.found ⟨[⟨"registry/path/mod:1.2.3"⟩]⟩ else GetResult.notFound)
        = Result.ok [("mod", ⟨"mod", "", "", "1.2.3", ""⟩)] ∧
      getInstalledModules [⟨"mod", "", [⟨"1.3.0", "", "kyma/mod-manager"⟩]⟩]
          (fun _ name => if name = "mod-manager"
            then GetResult.found ⟨[⟨"registry/path/mod:1.2.3"⟩]⟩ else GetResult.notFound)
        = Result.ok [("mod", ⟨"mod", "", "", "outdated moduleVersion, latest is 1.3.0", ""⟩)]) ∧
    (getInstalledVersion ⟨⟨"registry/path/mod:1.2.3"⟩ :: []⟩
        = some (imageTag "registry/path/mod:1.2.3") ∧
      (∃ installed,
        getInstalledModules ([] ++ (⟨"mod", "", [⟨"1.3.0", "", "kyma/mod-manager"⟩]⟩ : Module) :: [])
          (fun _ name => if name = "mod-manager"
            then GetResult.found ⟨[⟨"registry/path/mod:1.2.3"⟩]⟩ else GetResult.notFound)
          = Result.ok installed ∧
        moduleMap.get installed "mod" = some ⟨"mod", "", "",
          calculateVersion "1.3.0" (imageTag "registry/path/mod:1.2.3"), ""⟩) ∧
      (imageTag "registry/path/mod:1.2.3" = "1.3.0" →
        calculateVersion "1.3.0" (imageTag "registry/path/mod:1.2.3")
          = imageTag "registry/path/mod:1.2.3") ∧
      (imageTag "registry/path/mod:1.2.3" ≠ "1.3.0" →
        calculateVersion "1.3.0" (imageTag "registry/path/mod:1.2.3")
          = "outdated moduleVersion, latest is " ++ "1.3.0")) :=
  ⟨by decide,
   installed_row_version [] [] ⟨"mod", "", [⟨"1.3.0", "", "kyma/mod-manager"⟩]⟩
    (fun _ name => if name = "mod-manager"
      then GetResult.found ⟨[⟨"registry/path/mod:1.2.3"⟩]⟩ else GetResult.notFound)
    ⟨"1.3.0", "", "kyma/mod-manager"⟩ "registry/path/mod:1.2.3" []
    (by decide)
    (by
      intro ns name d h
      by_cases hn : name = "mod-manager"
      · simp only [hn, if_true, GetResult.found.injEq] at h
        subst h
        simp
      · simp [hn] at h)
    (by
      rintro ⟨x, hx, e, he⟩
      simp only [List.nil_append, List.mem_singleton] at hx
      subst hx
      have hv : managerLookup (fun _ name => if name = "mod-manager"
          then GetResult.found ⟨[⟨"registry/path/mod:1.2.3"⟩]⟩ else GetResult.notFound)
          ⟨"mod", "", [⟨"1.3.0", "", "kyma/mod-manager"⟩]⟩
          = some (GetResult.found ⟨[⟨"registry/path/mod:1.2.3"⟩]⟩) := by decide
      rw [hv] at he
      cases he)
    (by decide) (by decide) (by decide)⟩

/-- C10: for a catalog whose modules all have versions, and a workload lookup
whose found workloads have at least one container, `getInstalledModules`
returns an error (and so no rows) if and only if the lookup made for some
module (in namespace `kyma-system`, of the last `/`-segment of the
`managerPath` of its latest version) fails with an error other than not-found;
otherwise it returns a map whose keys are exactly the names of the modules
whose lookup found a workload, each once. -/
theorem getInstalledModules_fail_fast (modules : Modules) (get : String → String → GetResult)
    (hall : ∀ m ∈ modules, m.Versions ≠ [])
    (hcont : ∀ ns name d, get ns name = GetResult.found d → d.Containers ≠ []) :
    ((∃ msg, getInstalledModules modules get = Result.error msg) ↔
      ∃ m ∈ modules, ∃ e, managerLookup get m = some (GetResult.failure e)) ∧
    ((¬ ∃ m ∈ modules, ∃ e, managerLookup get m = some (GetResult.failure e)) →
      ∃ installed, getInstalledModules modules get = Result.ok installed ∧
        (moduleMap.keys installed).Nodup ∧
        ∀ k, k ∈ moduleMap.keys installed ↔
          ∃ m ∈ modules, m.Name = k ∧ ∃ d, managerLookup get m = some (GetResult.found d)) := by
  refine ⟨getInstalledModulesLoop_error_iff get modules [] hall hcont, ?_⟩
  intro hfail
  obtain ⟨out, h1, h2, h3, -⟩ := getInstalledModulesLoop_ok get modules [] hall hcont hfail
  refine ⟨out, h1, h2 (by simp [moduleMap.keys]), ?_⟩
  intro k
  rw [h3]
  simp [moduleMap.keys]

theorem getInstalledModules_fail_fast_witness :
    (∃ msg, getInstalledModules
        [⟨"istio", "", [⟨"1.0.0", "", "kyma/istio-manager"⟩]⟩,
         ⟨"nats", "", [⟨"2.0.0", "", "kyma/nats-manager"⟩]⟩]
        (fun _ name =>
          if name = "istio-manager" then GetResult.found ⟨[⟨"reg/istio:1.0.0"⟩]⟩
          else if name = "nats-manager" then GetResult.failure "timeout"
          else GetResult.notFound) = Result.error msg) ∧
    (∃ installed, getInstalledModules
        [⟨"istio", "", [⟨"1.0.0", "", "kyma/istio-manager"⟩]⟩,
         ⟨"keda", "", [⟨"2.0.0", "", "kyma/keda-manager"⟩]⟩]
        (fun _ name =>
          if name = "istio-manager" then GetResult.found ⟨[⟨"reg/istio:1.0.0"⟩]⟩
          else if name = "nats-manager" then GetResult.failure "timeout"
          else GetResult.notFound) = Result.ok installed ∧
      (moduleMap.keys installed).Nodup ∧
      ∀ k, k ∈ moduleMap.keys installed ↔
        ∃ m ∈ ([⟨"istio", "", [⟨"1.0.0", "", "kyma/istio-manager"⟩]⟩,
                ⟨"keda", "", [⟨"2.0.0", "", "kyma/keda-manager"⟩]⟩] : Modules),
          m.Name = k ∧ ∃ d, managerLookup
            (fun _ name =>
              if name = "istio-manager" then GetResult.found ⟨[⟨"reg/istio:1.0.0"⟩]⟩
              else if name = "nats-manager" then GetResult.failure "timeout"
              else GetResult.notFound) m = some (GetResult.found d)) ∧
    getInstalledModules
        [⟨"istio", "", [⟨"1.0.0", "", "kyma/istio-manager"⟩]⟩,
         ⟨"keda", "", [⟨"2.0.0", "", "kyma/keda-manager"⟩]⟩]
        (fun _ name =>
          if name = "istio-manager" then GetResult.found ⟨[⟨"reg/istio:1.0.0"⟩]⟩
          else if name = "nats-manager" then GetResult.failure "timeout"
          else GetResult.notFound)
      = Result.ok [("istio", ⟨"istio", "", "", "1.0.0", ""⟩)] := by
  have hcont : ∀ (ns name : String) (d : Deployment),
      (fun (_ : String) (name : String) =>
          if name = "istio-manager" then GetResult.found ⟨[⟨"reg/istio:1.0.0"⟩]⟩
          else if name = "nats-manager" then GetResult.failure "timeout"
          else GetResult.notFound) ns name = GetResult.found d → d.Containers ≠ [] := by
    intro ns name d h
    by_cases h1 : name = "istio-manager"
    · simp only [h1, if_true, GetResult.found.injEq] at h
      subst h
      simp
    · by_cases h2 : name = "nats-manager"
      · simp [h1, h2] at h
      · simp [h1, h2] at h
  refine ⟨?_, ?_, by decide⟩
  · exact (getInstalledModules_fail_fast _ _ (by decide) hcont).1.2
      ⟨⟨"nats", "", [⟨"2.0.0", "", "kyma/nats-manager"⟩]⟩, by simp, "timeout", by decide⟩
  · refine (getInstalledModules_fail_fast _ _ (by decide) hcont).2 ?_
    rintro ⟨x, hx, e, he⟩
    simp only [List.mem_cons, List.mem_singleton, List.not_mem_nil, or_false] at hx
    rcases hx with rfl | rfl
    · have hv : managerLookup (fun _ name =>
          if name = "istio-manager" then GetResult.found ⟨[⟨"reg/istio:1.0.0"⟩]⟩
          else if name = "nats-manager" then GetResult.failure "timeout"
          else GetResult.notFound) ⟨"istio", "", [⟨"1.0.0", "", "kyma/istio-manager"⟩]⟩
          = some (GetResult.found ⟨[⟨"reg/istio:1.0.0"⟩]⟩) := by decide
      rw [hv] at he
      cases he
    · have hv : managerLookup (fun _ name =>
          if name = "istio-manager" then GetResult.found ⟨[⟨"reg/istio:1.0.0"⟩]⟩
          else if name = "nats-manager" then GetResult.failure "timeout"
          else GetResult.notFound) ⟨"keda", "", [⟨"2.0.0", "", "kyma/keda-manager"⟩]⟩
          = some GetResult.notFound := by decide
      rw [hv] at he
      cases he

/-! ## The order of `semver.Compare` -/

namespace semver

theorem toNat_inj {a b : Char} (h : a.toNat = b.toNat) : a = b := by
  rw [← Char.ofNat_toNat a, ← Char.ofNat_toNat b, h]

theorem strLess_irrefl (x : List Char) : strLess x x = false := by
  induction x with
  | nil => rfl
  | cons a as ih => simp [strLess, ih]

theorem strLess_asymm (x y : List Char) (h : strLess x y = true) : strLess y x = false := by
  induction x generalizing y with
  | nil => cases y <;> simp_all [strLess]
  | cons a as ih =>
    cases y with
    | nil => simp [strLess] at h
    | cons b bs =>
      simp only [strLess] at h ⊢
      by_cases h1 : a.toNat < b.toNat
      · have h2 : ¬ b.toNat < a.toNat := by omega
        simp [h1, h2]
      · by_cases h2 : b.toNat < a.toNat
        · simp [h1, h2] at h
        · simp only [h1, h2, if_false] at h ⊢
          exact ih bs h

theorem strLess_total (x y : List Char) (hne : x ≠ y) (h : strLess x y = false) :
    strLess y x = true := by
  induction x generalizing y with
  | nil =>
    cases y with
    | nil => exact absurd rfl hne
    | cons b bs => simp [strLess] at h
  | cons a as ih =>
    cases y with
    | nil => rfl
    | cons b bs =>
      simp only [strLess] at h ⊢
      by_cases h1 : a.toNat < b.toNat
      · simp [h1] at h
      · by_cases h2 : b.toNat < a.toNat
        · simp [h2]
        · simp only [h1, h2, if_false] at h ⊢
          have hab : a = b := toNat_inj (by omega)
          exact ih bs (fun e => hne (by rw [hab, e])) h

theorem strLess_trans (x y z : List Char) (h1 : strLess x y = true) (h2 : strLess y z = true) :
    strLess x z = true := by
  induction x generalizing y z with
  | nil =>
    cases z with
    | nil => cases y <;> simp [strLess] at h1 h2
    | cons c cs => rfl
  | cons a as ih =>
    cases y with
    | nil => simp [strLess] at h1
    | cons b bs =>
      cases z with
      | nil => simp [strLess] at h2
      | cons c cs =>
        simp only [strLess] at h1 h2 ⊢
        by_cases hab : a.toNat < b.toNat
        · by_cases hbc : b.toNat < c.toNat
          · have : a.toNat < c.toNat := by omega
            simp [this]
          · by_cases hcb : c.toNat < b.toNat
            · simp [hbc, hcb] at h2
            · have : a.toNat < c.toNat := by omega
              simp [this]
        · by_cases hba : b.toNat < a.toNat
          · simp [hab, hba] at h1
          · simp only [hab, hba, if_false] at h1
            by_cases hbc : b.toNat < c.toNat
            · have : a.toNat < c.toNat := by omega
              simp [this]
            · by_cases hcb : c.toNat < b.toNat
              · simp [hbc, hcb] at h2
              · simp only [hbc, hcb, if_false] at h2
                have e1 : ¬ a.toNat < c.toNat := by omega
                have e2 : ¬ c.toNat < a.toNat := by omega
                simp only [e1, e2, if_false]
                exact ih bs cs h1 h2

/-! ### `compareInt` -/

theorem compareInt_eq_zero_iff (x y : List Char) : compareInt x y = 0 ↔ x = y := by
  unfold compareInt
  split_ifs <;> simp_all

theorem compareInt_swap (x y : List Char) : compareInt x y < 0 ↔ 0 < compareInt y x := by
  unfold compareInt
  by_cases hxy : x = y
  · subst hxy; simp
  · have hyx : ¬ y = x := fun e => hxy e.symm
    simp only [hxy, hyx, if_false]
    by_cases h1 : x.length < y.length
    · have h2 : ¬ y.length < x.length := by omega
      simp [h1, h2]
    · by_cases h2 : y.length < x.length
      · simp [h1, h2]
      · simp only [h1, h2, if_false, gt_iff_lt]
        by_cases h3 : strLess x y = true
        · simp [h3, strLess_asymm x y h3]
        · have h4 : strLess x y = false := by simpa using h3
          simp [h4, strLess_total x y hxy h4]

theorem compareInt_neg_iff (x y : List Char) :
    compareInt x y < 0 ↔
      x.length < y.length ∨ (x.length = y.length ∧ strLess x y = true) := by
  unfold compareInt
  by_cases hxy : x = y
  · subst hxy; simp [strLess_irrefl]
  · simp only [hxy, if_false, gt_iff_lt]
    by_cases h1 : x.length < y.length
    · simp [h1]
    · by_cases h2 : y.length < x.length
      · have : x.length ≠ y.length := by omega
        simp [h1, h2, this]
      · have : x.length = y.length := by omega
        by_cases h3 : strLess x y = true
        · simp [h1, h2, h3, this]
        · simp [h1, h2, h3, this]

theorem compareInt_trans (x y z : List Char) (h1 : compareInt x y < 0)
    (h2 : compareInt y z < 0) : compareInt x z < 0 := by
  rw [compareInt_neg_iff] at h1 h2 ⊢
  rcases h1 with h1 | ⟨h1, h1s⟩ <;> rcases h2 with h2 | ⟨h2, h2s⟩
  · left; omega
  · left; omega
  · left; omega
  · right; exact ⟨by omega, strLess_trans x y z h1s h2s⟩

end semver
namespace semver

/-! ### Identifiers of a pre-release -/

theorem identCmp_neg_iff (a b : List Char) :
    identCmp a b < 0 ↔
      (isNum a = true ∧ isNum b = false) ∨
      (isNum a = true ∧ isNum b = true ∧ a.length < b.length) ∨
      (isNum a = true ∧ isNum b = true ∧ a.length = b.length ∧ strLess a b = true) ∨
      (isNum a = false ∧ isNum b = false ∧ strLess a b = true) := by
  unfold identCmp
  cases ha : isNum a <;> cases hb : isNum b <;> simp
  · by_cases h : strLess a b = true <;> simp [h]
  · by_cases h1 : a.length < b.length
    · simp [h1]
    · by_cases h2 : b.length < a.length
      · have : a.length ≠ b.length := by omega
        simp [h1, h2, this]
      · have : a.length = b.length := by omega
        by_cases h : strLess a b = true <;> simp [h, h1, h2, this]

theorem identCmp_pos_iff (a b : List Char) : 0 < identCmp a b ↔ ¬ identCmp a b < 0 := by
  unfold identCmp
  split_ifs <;> simp

theorem identCmp_swap (a b : List Char) (hne : a ≠ b) :
    identCmp a b < 0 ↔ 0 < identCmp b a := by
  rw [identCmp_pos_iff, identCmp_neg_iff, identCmp_neg_iff]
  have hne2 : b ≠ a := fun e => hne e.symm
  have t1 := strLess_asymm a b
  have t2 := strLess_asymm b a
  have t3 := strLess_total a b hne
  cases ha : isNum a <;> cases hb : isNum b <;>
    cases hs : strLess a b <;> cases hs2 : strLess b a <;> simp_all <;> omega

theorem identCmp_trans (a b c : List Char) (h1 : identCmp a b < 0) (h2 : identCmp b c < 0) :
    identCmp a c < 0 := by
  rw [identCmp_neg_iff] at h1 h2 ⊢
  have t := strLess_trans a b c
  cases ha : isNum a <;> cases hb : isNum b <;> cases hc : isNum c <;> simp_all
  rcases h1 with h1 | ⟨h1, h1s⟩ <;> rcases h2 with h2 | ⟨h2, h2s⟩
  · left; omega
  · left; omega
  · left; omega
  · right; exact ⟨by omega, t h1s h2s⟩

theorem identCmp_self (a : List Char) : ¬ identCmp a a < 0 := by
  rw [identCmp_neg_iff]
  simp [strLess_irrefl]

/-! ### The loop of `comparePrerelease` -/

theorem comparePrereleaseLoop_succ (f : Nat) (x y : List Char) :
    comparePrereleaseLoop (f + 1) x y =
      if x ≠ [] ∧ y ≠ [] then
        if (nextIdent (x.drop 1)).1 ≠ (nextIdent (y.drop 1)).1 then
          identCmp (nextIdent (x.drop 1)).1 (nextIdent (y.drop 1)).1
        else comparePrereleaseLoop f (nextIdent (x.drop 1)).2 (nextIdent (y.drop 1)).2
      else if x = [] then -1 else 1 := by
  simp only [comparePrereleaseLoop, identCmp]

theorem comparePrereleaseLoop_nil_left (f : Nat) (y : List Char) :
    comparePrereleaseLoop f [] y = -1 := by
  cases f <;> simp [comparePrereleaseLoop]

theorem comparePrereleaseLoop_nil_right (f : Nat) (x : List Char) (hx : x ≠ []) :
    comparePrereleaseLoop f x [] = 1 := by
  cases f <;> simp [comparePrereleaseLoop, hx]

theorem identCmp_pm (a b : List Char) : identCmp a b = -1 ∨ identCmp a b = 1 := by
  unfold identCmp
  split_ifs <;> simp

theorem comparePrereleaseLoop_pm (f : Nat) (x y : List Char) :
    comparePrereleaseLoop f x y = -1 ∨ comparePrereleaseLoop f x y = 1 := by
  induction f generalizing x y with
  | zero =>
    simp only [comparePrereleaseLoop]
    split_ifs <;> simp
  | succ f ih =>
    rw [comparePrereleaseLoop_succ]
    split_ifs
    · exact identCmp_pm _ _
    · exact ih _ _
    · simp
    · simp

theorem comparePrereleaseLoop_trans (f : Nat) (x y z : List Char)
    (h1 : comparePrereleaseLoop f x y < 0) (h2 : comparePrereleaseLoop f y z < 0) :
    comparePrereleaseLoop f x z < 0 := by
  induction f generalizing x y z with
  | zero =>
    simp only [comparePrereleaseLoop] at h1 h2 ⊢
    by_cases hx : x = []
    · simp [hx]
    · simp [hx] at h1
  | succ f ih =>
    rw [comparePrereleaseLoop_succ] at h1 h2 ⊢
    by_cases hx : x = []
    · simp [hx]
    · by_cases hy : y = []
      · simp [hx, hy] at h1
      · by_cases hz : z = []
        · simp [hy, hz] at h2
        · simp only [hx, hy, hz, ne_eq, not_false_eq_true, and_self, if_true] at h1 h2 ⊢
          by_cases hxy : (nextIdent (x.drop 1)).1 = (nextIdent (y.drop 1)).1
          · by_cases hyz : (nextIdent (y.drop 1)).1 = (nextIdent (z.drop 1)).1
            · have hxz : (nextIdent (x.drop 1)).1 = (nextIdent (z.drop 1)).1 := hxy.trans hyz
              simp only [hxy, hyz, hxz, not_true_eq_false, if_false] at h1 h2 ⊢
              exact ih _ _ _ h1 h2
            · simp only [hyz, not_false_eq_true, if_true] at h2
              have hxz : ¬ (nextIdent (x.drop 1)).1 = (nextIdent (z.drop 1)).1 := by
                rw [hxy]; exact hyz
              simp only [hxz, not_false_eq_true, if_true]
              rw [hxy]; exact h2
          · simp only [hxy, not_false_eq_true, if_true] at h1
            by_cases hyz : (nextIdent (y.drop 1)).1 = (nextIdent (z.drop 1)).1
            · have hxz : ¬ (nextIdent (x.drop 1)).1 = (nextIdent (z.drop 1)).1 := by
                rw [← hyz]; exact hxy
              simp only [hxz, not_false_eq_true, if_true]
              rw [← hyz]; exact h1
            · simp only [hyz, not_false_eq_true, if_true] at h2
              have h3 := identCmp_trans _ _ _ h1 h2
              have hxz : ¬ (nextIdent (x.drop 1)).1 = (nextIdent (z.drop 1)).1 := by
                intro e
                rw [e] at h3
                exact identCmp_self _ h3
              simp only [hxz, not_false_eq_true, if_true]
              exact h3

theorem nextIdent_length (s : List Char) : (nextIdent s).2.length ≤ s.length := by
  simp only [nextIdent]
  exact (List.dropWhile_sublist _).length_le

theorem nextIdent_append (s : List Char) : (nextIdent s).1 ++ (nextIdent s).2 = s := by
  simp [nextIdent, List.takeWhile_append_dropWhile]

theorem nextIdent_head (s : List Char) (h : (nextIdent s).2 ≠ []) :
    (nextIdent s).2.head? = some '.' := by
  simp only [nextIdent] at h ⊢
  induction s with
  | nil => simp at h
  | cons c cs ih =>
    by_cases hc : c = '.'
    · simp [List.dropWhile, hc]
    · have hb : (c != '.') = true := by simpa using hc
      simp only [List.dropWhile, hb] at h ⊢
      exact ih h

theorem comparePrereleaseLoop_fuel (f : Nat) (x y : List Char)
    (h : x.length < f ∨ y.length < f) :
    comparePrereleaseLoop f x y = comparePrereleaseLoop (f + 1) x y := by
  induction f generalizing x y with
  | zero => omega
  | succ f ih =>
    rw [comparePrereleaseLoop_succ f, comparePrereleaseLoop_succ (f + 1)]
    by_cases hx : x = []
    · simp [hx]
    · by_cases hy : y = []
      · simp [hy]
      · simp only [hx, hy, ne_eq, not_false_eq_true, and_self, if_true]
        split_ifs
        · apply ih
          have h1 := nextIdent_length (x.drop 1)
          have h2 := nextIdent_length (y.drop 1)
          have h3 : 0 < x.length := List.length_pos.2 hx
          have h4 : 0 < y.length := List.length_pos.2 hy
          simp only [List.length_drop] at h1 h2
          omega
        · rfl

theorem comparePrereleaseLoop_fuel_le (f g : Nat) (x y : List Char)
    (h : x.length < f ∨ y.length < f) (hfg : f ≤ g) :
    comparePrereleaseLoop f x y = comparePrereleaseLoop g x y := by
  induction g with
  | zero =>
    have : f = 0 := by omega
    rw [this]
  | succ g ih =>
    by_cases hg : f ≤ g
    · rw [ih hg]
      exact comparePrereleaseLoop_fuel g x y (by omega)
    · have : f = g + 1 := by omega
      rw [this]

theorem comparePrereleaseLoop_swap (f : Nat) (x y : List Char) (hne : x ≠ y)
    (hhead : x.head? = y.head?) (h : x.length < f ∨ y.length < f) :
    comparePrereleaseLoop f x y < 0 ↔ 0 < comparePrereleaseLoop f y x := by
  induction f generalizing x y with
  | zero => omega
  | succ f ih =>
    cases x with
    | nil =>
      cases y with
      | nil => exact absurd rfl hne
      | cons b bs => simp at hhead
    | cons a as =>
      cases y with
      | nil => simp at hhead
      | cons b bs =>
        have hab : a = b := by simpa using hhead
        subst hab
        have hbody : as ≠ bs := fun e => hne (by rw [e])
        rw [comparePrereleaseLoop_succ, comparePrereleaseLoop_succ]
        simp only [ne_eq, reduceCtorEq, not_false_eq_true, and_self, if_true, List.drop_succ_cons,
          List.drop_zero]
        by_cases hd : (nextIdent as).1 = (nextIdent bs).1
        · simp only [hd, not_true_eq_false, if_false]
          have hrest : (nextIdent as).2 ≠ (nextIdent bs).2 := by
            intro e
            apply hbody
            rw [← nextIdent_append as, ← nextIdent_append bs, hd, e]
          by_cases hx2 : (nextIdent as).2 = []
          · have hy2 : (nextIdent bs).2 ≠ [] := fun e => hrest (by rw [hx2, e])
            rw [hx2, comparePrereleaseLoop_nil_left, comparePrereleaseLoop_nil_right _ _ hy2]
            simp
          · by_cases hy2 : (nextIdent bs).2 = []
            · rw [hy2, comparePrereleaseLoop_nil_left, comparePrereleaseLoop_nil_right _ _ hx2]
              simp
            · apply ih _ _ hrest
              · rw [nextIdent_head as hx2, nextIdent_head bs hy2]
              · have h1 := nextIdent_length as
                have h2 := nextIdent_length bs
                simp only [List.length_cons] at h
                omega
        · have hd2 : ¬ (nextIdent bs).1 = (nextIdent as).1 := fun e => hd e.symm
          simp only [hd, hd2, not_false_eq_true, if_true]
          exact identCmp_swap _ _ hd


end semver

namespace semver

/-! ### `comparePrerelease` -/

theorem comparePrerelease_eq_zero_iff (x y : List Char) :
    comparePrerelease x y = 0 ↔ x = y := by
  unfold comparePrerelease
  by_cases hxy : x = y
  · simp [hxy]
  · simp only [hxy, if_false, iff_false]
    split_ifs
    · simp
    · simp
    · rcases comparePrereleaseLoop_pm (x.length + 1) x y with h | h <;> rw [h] <;> simp

theorem comparePrerelease_eq_loop (x y : List Char) (hne : x ≠ y) (hx : x ≠ []) (hy : y ≠ [])
    (g : Nat) (hg : x.length + 1 ≤ g) :
    comparePrerelease x y = comparePrereleaseLoop g x y := by
  unfold comparePrerelease
  simp only [hne, hx, hy, if_false]
  exact comparePrereleaseLoop_fuel_le _ _ x y (by omega) hg

theorem comparePrerelease_swap (x y : List Char)
    (hx : x = [] ∨ x.head? = some '-') (hy : y = [] ∨ y.head? = some '-') :
    comparePrerelease x y < 0 ↔ 0 < comparePrerelease y x := by
  by_cases hxy : x = y
  · subst hxy
    simp [comparePrerelease]
  · have hyx : ¬ y = x := fun e => hxy e.symm
    by_cases hx0 : x = []
    · have hy0 : y ≠ [] := fun e => hxy (by rw [hx0, e])
      simp [comparePrerelease, hxy, hyx, hx0, hy0]
    · by_cases hy0 : y = []
      · simp [comparePrerelease, hxy, hyx, hx0, hy0]
      · rw [comparePrerelease_eq_loop x y hxy hx0 hy0 (x.length + y.length + 1) (by omega),
          comparePrerelease_eq_loop y x hyx hy0 hx0 (x.length + y.length + 1) (by omega)]
        apply comparePrereleaseLoop_swap _ x y hxy
        · rcases hx with h | h
          · exact absurd h hx0
          · rcases hy with h2 | h2
            · exact absurd h2 hy0
            · rw [h, h2]
        · omega

theorem comparePrerelease_trans (x y z : List Char)
    (hx : x = [] ∨ x.head? = some '-') (hy : y = [] ∨ y.head? = some '-')
    (h1 : comparePrerelease x y < 0) (h2 : comparePrerelease y z < 0) :
    comparePrerelease x z < 0 := by
  have hxy : x ≠ y := by
    intro e
    rw [(comparePrerelease_eq_zero_iff x y).2 e] at h1
    omega
  have hyz : y ≠ z := by
    intro e
    rw [(comparePrerelease_eq_zero_iff y z).2 e] at h2
    omega
  have hxz : x ≠ z := by
    intro e
    subst e
    have := (comparePrerelease_swap x y hx hy).1 h1
    omega
  have hx0 : x ≠ [] := by
    intro e
    have hy0 : y ≠ [] := fun e2 => hxy (by rw [e, e2])
    simp [comparePrerelease, hxy, e, hy0] at h1
  have hy0 : y ≠ [] := by
    intro e
    have hz0 : z ≠ [] := fun e2 => hyz (by rw [e, e2])
    simp [comparePrerelease, hyz, e, hz0] at h2
  by_cases hz0 : z = []
  · simp [comparePrerelease, hxz, hx0, hz0]
  · rw [comparePrerelease_eq_loop x y hxy hx0 hy0 (x.length + y.length + 1) (by omega)] at h1
    rw [comparePrerelease_eq_loop y z hyz hy0 hz0 (x.length + y.length + 1) (by omega)] at h2
    rw [comparePrerelease_eq_loop x z hxz hx0 hz0 (x.length + y.length + 1) (by omega)]
    exact comparePrereleaseLoop_trans _ x y z h1 h2

/-! ### The pre-release of a parsed version -/

theorem parsePrereleaseLoop_prefix (rest cur seen pre r : List Char)
    (h : parsePrereleaseLoop rest cur seen = some (pre, r)) : seen <+: pre := by
  induction rest generalizing cur seen with
  | nil =>
    simp only [parsePrereleaseLoop] at h
    split_ifs at h
    simp only [Option.some.injEq, Prod.mk.injEq] at h
    rw [← h.1]
  | cons c cs ih =>
    simp only [parsePrereleaseLoop] at h
    split_ifs at h
    · simp only [Option.some.injEq, Prod.mk.injEq] at h
      rw [← h.1]
    · exact (List.prefix_append seen [c]).trans (ih _ _ h)
    · exact (List.prefix_append seen [c]).trans (ih _ _ h)

theorem parsePrerelease_head (v pre r : List Char) (h : parsePrerelease v = some (pre, r)) :
    pre.head? = some '-' := by
  cases v with
  | nil => simp [parsePrerelease] at h
  | cons c cs =>
    simp only [parsePrerelease] at h
    split_ifs at h with hc
    have hc2 : c = '-' := by simpa using hc
    subst hc2
    obtain ⟨t, ht⟩ := parsePrereleaseLoop_prefix cs [] ['-'] pre r h
    rw [← ht]
    rfl

theorem parse_prerelease (v : List Char) (p : parsed) (h : parse v = some p) :
    p.prerelease = [] ∨ p.prerelease.head? = some '-' := by
  unfold parse at h
  split at h
  · cases h
  · split_ifs at h
    split at h
    · cases h
    · split at h
      · cases h; left; rfl
      · split_ifs at h
        split at h
        · cases h
        · split at h
          · cases h; left; rfl
          · split_ifs at h
            split at h
            · cases h
            · split at h
              · cases h
              · rename_i hpre
                split at h
                · cases h
                · split_ifs at h
                  cases h
                  simp only
                  split_ifs at hpre with hh
                  · right
                    exact parsePrerelease_head _ _ _ hpre
                  · left
                    simp only [Option.some.injEq, Prod.mk.injEq] at hpre
                    exact hpre.1.symm

end semver
namespace semver

/-! ### `Compare` -/

theorem lex_neg_iff (x y : Int) : (if x ≠ 0 then x else y) < 0 ↔ x < 0 ∨ (x = 0 ∧ y < 0) := by
  by_cases h : x = 0
  · simp [h]
  · simp [h]

theorem lex_pos_iff (x y : Int) : 0 < (if x ≠ 0 then x else y) ↔ 0 < x ∨ (x = 0 ∧ 0 < y) := by
  by_cases h : x = 0
  · simp [h]
  · simp [h]

theorem compareParsed_some_neg_iff (a b : parsed) :
    compareParsed (some a) (some b) < 0 ↔
      compareInt a.major b.major < 0 ∨ (a.major = b.major ∧
        (compareInt a.minor b.minor < 0 ∨ (a.minor = b.minor ∧
          (compareInt a.patch b.patch < 0 ∨ (a.patch = b.patch ∧
            comparePrerelease a.prerelease b.prerelease < 0))))) := by
  simp only [compareParsed, lex_neg_iff, compareInt_eq_zero_iff]

theorem compareParsed_some_pos_iff (a b : parsed) :
    0 < compareParsed (some a) (some b) ↔
      0 < compareInt a.major b.major ∨ (a.major = b.major ∧
        (0 < compareInt a.minor b.minor ∨ (a.minor = b.minor ∧
          (0 < compareInt a.patch b.patch ∨ (a.patch = b.patch ∧
            0 < comparePrerelease a.prerelease b.prerelease))))) := by
  simp only [compareParsed, lex_pos_iff, compareInt_eq_zero_iff]

theorem compareParsed_swap (a b : Option parsed)
    (ha : ∀ p, a = some p → p.prerelease = [] ∨ p.prerelease.head? = some '-')
    (hb : ∀ p, b = some p → p.prerelease = [] ∨ p.prerelease.head? = some '-') :
    compareParsed a b < 0 ↔ 0 < compareParsed b a := by
  cases a with
  | none => cases b <;> simp [compareParsed]
  | some pa =>
    cases b with
    | none => simp [compareParsed]
    | some pb =>
      rw [compareParsed_some_neg_iff, compareParsed_some_pos_iff,
        compareInt_swap pa.major, compareInt_swap pa.minor, compareInt_swap pa.patch,
        comparePrerelease_swap pa.prerelease pb.prerelease (ha pa rfl) (hb pb rfl)]
      constructor
      · rintro (h | ⟨e1, h | ⟨e2, h | ⟨e3, h⟩⟩⟩)
        · exact Or.inl h
        · exact Or.inr ⟨e1.symm, Or.inl h⟩
        · exact Or.inr ⟨e1.symm, Or.inr ⟨e2.symm, Or.inl h⟩⟩
        · exact Or.inr ⟨e1.symm, Or.inr ⟨e2.symm, Or.inr ⟨e3.symm, h⟩⟩⟩
      · rintro (h | ⟨e1, h | ⟨e2, h | ⟨e3, h⟩⟩⟩)
        · exact Or.inl h
        · exact Or.inr ⟨e1.symm, Or.inl h⟩
        · exact Or.inr ⟨e1.symm, Or.inr ⟨e2.symm, Or.inl h⟩⟩
        · exact Or.inr ⟨e1.symm, Or.inr ⟨e2.symm, Or.inr ⟨e3.symm, h⟩⟩⟩

theorem compareParsed_trans (a b c : Option parsed)
    (ha : ∀ p, a = some p → p.prerelease = [] ∨ p.prerelease.head? = some '-')
    (hb : ∀ p, b = some p → p.prerelease = [] ∨ p.prerelease.head? = some '-')
    (h1 : compareParsed a b < 0) (h2 : compareParsed b c < 0) : compareParsed a c < 0 := by
  cases a with
  | none =>
    cases c with
    | none => cases b <;> simp [compareParsed] at h1 h2
    | some pc => simp [compareParsed]
  | some pa =>
    cases b with
    | none => simp [compareParsed] at h1
    | some pb =>
      cases c with
      | none => simp [compareParsed] at h2
      | some pc =>
        rw [compareParsed_some_neg_iff] at h1 h2 ⊢
        have t1 := compareInt_trans pa.major pb.major pc.major
        have t2 := compareInt_trans pa.minor pb.minor pc.minor
        have t3 := compareInt_trans pa.patch pb.patch pc.patch
        have t4 := comparePrerelease_trans pa.prerelease pb.prerelease pc.prerelease
          (ha pa rfl) (hb pb rfl)
        rcases h1 with h | ⟨e1, h | ⟨e2, h | ⟨e3, h⟩⟩⟩ <;>
          rcases h2 with g | ⟨f1, g | ⟨f2, g | ⟨f3, g⟩⟩⟩ <;>
          simp_all

theorem compareParsed_congr (a b c : Option parsed) (h : compareParsed a b = 0) :
    compareParsed a c = compareParsed b c := by
  cases a with
  | none =>
    cases b with
    | none => rfl
    | some pb => simp [compareParsed] at h
  | some pa =>
    cases b with
    | none => simp [compareParsed] at h
    | some pb =>
      have h4 : pa.major = pb.major ∧ pa.minor = pb.minor ∧ pa.patch = pb.patch ∧
          pa.prerelease = pb.prerelease := by
        simp only [compareParsed] at h
        split_ifs at h with g1 g2 g3
        · exact absurd h g1
        · exact absurd h g2
        · exact absurd h g3
        · simp only [ne_eq, not_not, compareInt_eq_zero_iff] at g1 g2 g3
          exact ⟨g1, g2, g3, (comparePrerelease_eq_zero_iff _ _).1 h⟩
      cases c with
      | none => rfl
      | some pc =>
        simp only [compareParsed, h4.1, h4.2.1, h4.2.2.1, h4.2.2.2]

theorem compareParsed_trans_le (a b c : Option parsed)
    (ha : ∀ p, a = some p → p.prerelease = [] ∨ p.prerelease.head? = some '-')
    (hb : ∀ p, b = some p → p.prerelease = [] ∨ p.prerelease.head? = some '-')
    (hc : ∀ p, c = some p → p.prerelease = [] ∨ p.prerelease.head? = some '-')
    (h1 : compareParsed a b ≤ 0) (h2 : compareParsed b c ≤ 0) : compareParsed a c ≤ 0 := by
  rcases lt_or_eq_of_le h1 with h1 | h1
  · rcases lt_or_eq_of_le h2 with h2 | h2
    · exact Int.le_of_lt (compareParsed_trans a b c ha hb h1 h2)
    · have hcb : compareParsed c b = 0 := by
        have s1 := compareParsed_swap b c hb hc
        have s2 := compareParsed_swap c b hc hb
        omega
      have e := compareParsed_congr c b a hcb
      have s3 := compareParsed_swap a b ha hb
      have s4 := compareParsed_swap a c ha hc
      have : compareParsed a c < 0 := by
        rw [s4, e]
        exact s3.1 h1
      exact Int.le_of_lt this
  · rw [compareParsed_congr a b c h1]
    exact h2

end semver

/-! ### The comparison used by `getLatestVersion` -/

theorem versionCmp_eq (a b : Version) :
    versionCmp a b = semver.compareParsed
      (semver.parse (if !semver.IsValid a.Version then "v" ++ a.Version else a.Version).data)
      (semver.parse (if !semver.IsValid b.Version then "v" ++ b.Version else b.Version).data) :=
  rfl

theorem versionCmp_swap (a b : Version) : versionCmp a b < 0 ↔ 0 < versionCmp b a := by
  rw [versionCmp_eq, versionCmp_eq]
  exact semver.compareParsed_swap _ _ (fun p h => semver.parse_prerelease _ p h)
    (fun p h => semver.parse_prerelease _ p h)

theorem versionCmp_trans_le (a b c : Version) (h1 : versionCmp a b ≤ 0)
    (h2 : versionCmp b c ≤ 0) : versionCmp a c ≤ 0 := by
  rw [versionCmp_eq] at h1 h2 ⊢
  exact semver.compareParsed_trans_le _ _ _ (fun p h => semver.parse_prerelease _ p h)
    (fun p h => semver.parse_prerelease _ p h) (fun p h => semver.parse_prerelease _ p h) h1 h2

theorem versionCmp_self (a : Version) : versionCmp a a = 0 := by
  have := versionCmp_swap a a
  omega

/-! ## Latest-version selection -/

/-- The loop of `slices.MaxFunc` under a comparison that comes from a total
preorder: the value returned sits in the scanned list, everything before it
ranks strictly below it and everything after it ranks at most as high. -/
theorem slices.maxFuncLoop_spec {α : Type} (cmp : α → α → Int)
    (hswap : ∀ a b, cmp a b < 0 ↔ 0 < cmp b a)
    (htrans : ∀ a b c, cmp a b ≤ 0 → cmp b c ≤ 0 → cmp a c ≤ 0)
    (xs before mid : List α) (m : α)
    (hbefore : ∀ x ∈ before, cmp x m < 0) (hmid : ∀ x ∈ mid, cmp x m ≤ 0) :
    ∃ pre post, before ++ m :: mid ++ xs = pre ++ slices.maxFuncLoop cmp m xs :: post ∧
      (∀ x ∈ pre, cmp x (slices.maxFuncLoop cmp m xs) < 0) ∧
      (∀ x ∈ post, cmp x (slices.maxFuncLoop cmp m xs) ≤ 0) := by
  induction xs generalizing before mid m with
  | nil => exact ⟨before, mid, by simp [slices.maxFuncLoop], hbefore, hmid⟩
  | cons x xs ih =>
    have hself : cmp m m = 0 := by
      have := hswap m m
      omega
    by_cases hx : cmp x m > 0
    · have hlt : ∀ y, cmp y m ≤ 0 → cmp y x < 0 := by
        intro y hy
        by_contra hnot
        have h1 : cmp x y ≤ 0 := by
          have := hswap x y
          have := hswap y x
          omega
        have := htrans x y m h1 hy
        omega
      obtain ⟨pre, post, h1, h2, h3⟩ := ih (before ++ m :: mid) [] x
        (by
          intro y hy
          rcases List.mem_append.1 hy with h | h
          · exact hlt y (Int.le_of_lt (hbefore y h))
          · rcases List.mem_cons.1 h with h | h
            · rw [h]; exact hlt m (by omega)
            · exact hlt y (hmid y h))
        (by simp)
      refine ⟨pre, post, ?_, ?_, ?_⟩
      · simp only [slices.maxFuncLoop, hx, if_true]
        rw [← h1]
        simp
      · simpa only [slices.maxFuncLoop, hx, if_true] using h2
      · simpa only [slices.maxFuncLoop, hx, if_true] using h3
    · obtain ⟨pre, post, h1, h2, h3⟩ := ih before (mid ++ [x]) m hbefore
        (by
          intro y hy
          rcases List.mem_append.1 hy with h | h
          · exact hmid y h
          · simp only [List.mem_singleton] at h
            rw [h]; omega)
      refine ⟨pre, post, ?_, ?_, ?_⟩
      · simp only [slices.maxFuncLoop, hx, if_false]
        rw [← h1]
        simp
      · simpa only [slices.maxFuncLoop, hx, if_false] using h2
      · simpa only [slices.maxFuncLoop, hx, if_false] using h3

theorem getLatestVersion_spec (versions : List Version) (h : versions ≠ []) :
    ∃ latest pre post, getLatestVersion versions = some latest ∧
      versions = pre ++ latest :: post ∧
      (∀ x ∈ pre, versionCmp x latest < 0) ∧
      (∀ x ∈ post, versionCmp x latest ≤ 0) := by
  cases versions with
  | nil => exact absurd rfl h
  | cons v rest =>
    obtain ⟨pre, post, h1, h2, h3⟩ := slices.maxFuncLoop_spec versionCmp versionCmp_swap
      versionCmp_trans_le rest [] [] v (by simp) (by simp)
    exact ⟨_, pre, post, rfl, by simpa using h1, h2, h3⟩

theorem getLatestVersion_max (versions : List Version) (latest : Version)
    (h : getLatestVersion versions = some latest) :
    latest ∈ versions ∧ ∀ x ∈ versions, versionCmp x latest ≤ 0 := by
  have hne : versions ≠ [] := by
    intro e
    simp [getLatestVersion, slices.MaxFunc, e] at h
  obtain ⟨l, pre, post, h1, h2, h3, h4⟩ := getLatestVersion_spec versions hne
  rw [h] at h1
  cases h1
  refine ⟨by rw [h2]; simp, ?_⟩
  intro x hx
  rw [h2] at hx
  rcases List.mem_append.1 hx with hx | hx
  · exact Int.le_of_lt (h3 x hx)
  · rcases List.mem_cons.1 hx with hx | hx
    · rw [hx, versionCmp_self]
    · exact h4 x hx

/-- C3: for every non-empty versions list `getLatestVersion` returns an entry
of the list, unchanged, such that no entry of the list ranks strictly above
it under `semver.Compare` applied after prepending `v` to each version string
that is not valid semver; every entry that precedes the returned occurrence
ranks strictly below it, so among the entries of maximal rank it is the one
that occurs first. -/
theorem getLatestVersion_first_maximum (versions : List Version) (h : versions ≠ []) :
    ∃ latest pre post, getLatestVersion versions = some latest ∧
      versions = pre ++ latest :: post ∧
      latest ∈ versions ∧
      (∀ x ∈ versions, ¬ 0 < versionCmp x latest) ∧
      (∀ x ∈ pre, versionCmp x latest < 0) := by
  obtain ⟨latest, pre, post, h1, h2, h3, -⟩ := getLatestVersion_spec versions h
  refine ⟨latest, pre, post, h1, h2, (getLatestVersion_max versions latest h1).1, ?_, h3⟩
  intro x hx
  have := (getLatestVersion_max versions latest h1).2 x hx
  omega

theorem getLatestVersion_first_maximum_witness :
    (∃ latest pre post,
      getLatestVersion [⟨"1.9.9", "", ""⟩, ⟨"2.0.0", "a", ""⟩, ⟨"v2.0.0", "b", ""⟩,
        ⟨"2.0.0-rc.1", "", ""⟩] = some latest ∧
      [⟨"1.9.9", "", ""⟩, ⟨"2.0.0", "a", ""⟩, ⟨"v2.0.0", "b", ""⟩, ⟨"2.0.0-rc.1", "", ""⟩]
        = pre ++ latest :: post ∧
      latest ∈ ([⟨"1.9.9", "", ""⟩, ⟨"2.0.0", "a", ""⟩, ⟨"v2.0.0", "b", ""⟩,
        ⟨"2.0.0-rc.1", "", ""⟩] : List Version) ∧
      (∀ x ∈ ([⟨"1.9.9", "", ""⟩, ⟨"2.0.0", "a", ""⟩, ⟨"v2.0.0", "b", ""⟩,
        ⟨"2.0.0-rc.1", "", ""⟩] : List Version), ¬ 0 < versionCmp x latest) ∧
      (∀ x ∈ pre, versionCmp x latest < 0)) ∧
    getLatestVersion [⟨"1.9.9", "", ""⟩, ⟨"2.0.0", "a", ""⟩, ⟨"v2.0.0", "b", ""⟩,
      ⟨"2.0.0-rc.1", "", ""⟩] = some ⟨"2.0.0", "a", ""⟩ :=
  ⟨getLatestVersion_first_maximum _ (by decide), by decide⟩

/-- C2 (as stated, refuted): two entries of equal rank (`1.2.3` and `v1.2.3`)
in the two possible orders give two different results. -/
theorem getLatestVersion_order_dependent :
    List.Perm [(⟨"1.2.3", "", ""⟩ : Version), ⟨"v1.2.3", "", ""⟩]
      [⟨"v1.2.3", "", ""⟩, ⟨"1.2.3", "", ""⟩] ∧
    getLatestVersion [⟨"1.2.3", "", ""⟩, ⟨"v1.2.3", "", ""⟩] = some ⟨"1.2.3", "", ""⟩ ∧
    getLatestVersion [⟨"v1.2.3", "", ""⟩, ⟨"1.2.3", "", ""⟩] = some ⟨"v1.2.3", "", ""⟩ ∧
    getLatestVersion [⟨"1.2.3", "", ""⟩, ⟨"v1.2.3", "", ""⟩]
      ≠ getLatestVersion [⟨"v1.2.3", "", ""⟩, ⟨"1.2.3", "", ""⟩] := by
  refine ⟨List.Perm.swap _ _ _, by decide, by decide, by decide⟩

/-- C2 (amended): for every non-empty versions list and every permutation of
it, `getLatestVersion` returns for both an entry, and the two entries have the
same rank (they compare equal); when no other entry of the list has the rank
of the one returned, both return the same entry; a singleton list returns its
only element. -/
theorem getLatestVersion_perm (versions reordered : List Version) (h : versions ≠ [])
    (hperm : versions.Perm reordered) :
    (∃ a b, getLatestVersion versions = some a ∧ getLatestVersion reordered = some b ∧
      versionCmp a b = 0 ∧
      ((∀ x ∈ versions, versionCmp x a = 0 → x = a) → a = b)) ∧
    (∀ v, getLatestVersion [v] = some v) := by
  refine ⟨?_, fun v => rfl⟩
  have h2 : reordered ≠ [] := by
    intro e
    rw [e] at hperm
    exact h hperm.eq_nil
  obtain ⟨a, ha⟩ := getLatestVersion_isSome versions h
  obtain ⟨b, hb⟩ := getLatestVersion_isSome reordered h2
  obtain ⟨ha1, ha2⟩ := getLatestVersion_max versions a ha
  obtain ⟨hb1, hb2⟩ := getLatestVersion_max reordered b hb
  have hab : versionCmp a b ≤ 0 := hb2 a (hperm.mem_iff.1 ha1)
  have hba : versionCmp b a ≤ 0 := ha2 b (hperm.mem_iff.2 hb1)
  have s1 := versionCmp_swap a b
  have s2 := versionCmp_swap b a
  refine ⟨a, b, ha, hb, by omega, ?_⟩
  intro huniq
  exact (huniq b (hperm.mem_iff.2 hb1) (by omega)).symm

theorem getLatestVersion_perm_witness :
    (∃ a b,
      getLatestVersion [⟨"1.9.9", "", ""⟩, ⟨"2.0.0", "", ""⟩, ⟨"2.0.0-rc.1", "", ""⟩] = some a ∧
      getLatestVersion [⟨"2.0.0", "", ""⟩, ⟨"1.9.9", "", ""⟩, ⟨"2.0.0-rc.1", "", ""⟩] = some b ∧
      versionCmp a b = 0 ∧
      ((∀ x ∈ ([⟨"1.9.9", "", ""⟩, ⟨"2.0.0", "", ""⟩, ⟨"2.0.0-rc.1", "", ""⟩] : List Version),
        versionCmp x a = 0 → x = a) → a = b)) ∧
    (∀ v, getLatestVersion [v] = some v) :=
  getLatestVersion_perm _ _ (by decide) (List.Perm.swap _ _ _)

/-! ## The last-segment indexing -/

theorem lastSegment_of_not_mem (sep : Char) (s : List Char) (h : sep ∉ s) :
    lastSegment sep s = s := by
  cases s with
  | nil => rfl
  | cons c cs =>
    have hc : ¬ c = sep := fun e => h (by simp [e])
    have hcs : sep ∉ cs := fun e => h (by simp [e])
    simp [lastSegment, hc, hcs]

/-- C14: the last-segment indexing of `getManagerName` and `getInstalledVersion`
is always in bounds: `strings.Split` on a one-character separator yields at
least one segment for every string, so `getManagerName` returns a name for
every `managerPath` and `getInstalledVersion` returns a tag for every image
reference of the first container; a path without `/` is returned whole, and an
image whose last path segment has no `:` yields that whole segment. -/
theorem last_segment_in_bounds (version : Version) (image : String) (others : List Container)
    (s : String) (sep : Char) :
    1 ≤ (strings.Split s sep).length ∧
    (∃ name, getManagerName version = some name) ∧
    (∃ tag, getInstalledVersion ⟨⟨image⟩ :: others⟩ = some tag) ∧
    ('/' ∉ version.ManagerPath.data → getManagerName version = some version.ManagerPath) ∧
    (':' ∉ lastSegment '/' image.data →
      getInstalledVersion ⟨⟨image⟩ :: others⟩ = some (String.mk (lastSegment '/' image.data))) := by
  refine ⟨?_, ⟨_, getManagerName_eq version⟩, ⟨_, getInstalledVersion_eq image others⟩, ?_, ?_⟩
  · have h := strings.splitChars_ne_nil sep s.data
    simp only [strings.Split, List.length_map]
    exact List.length_pos.2 h
  · intro h
    rw [getManagerName_eq, lastSegment_of_not_mem '/' _ h]
  · intro h
    rw [getInstalledVersion_eq, imageTag, lastSegment_of_not_mem ':' _ h]

theorem last_segment_in_bounds_witness :
    1 ≤ (strings.Split "" '/').length ∧
    ('/' ∉ ("btp-manager" : String).data ∧
      getManagerName ⟨"1.0.0", "", "btp-manager"⟩ = some "btp-manager") ∧
    (':' ∉ lastSegment '/' ("registry/path/mod" : String).data ∧
      getInstalledVersion ⟨⟨"registry/path/mod"⟩ :: []⟩
        = some (String.mk (lastSegment '/' ("registry/path/mod" : String).data))) ∧
    getManagerName ⟨"1.0.0", "", ""⟩ = some "" ∧
    getInstalledVersion ⟨[⟨""⟩]⟩ = some "" ∧
    getInstalledVersion ⟨[⟨"registry/path/mod"⟩]⟩ = some "mod" :=
  ⟨(last_segment_in_bounds ⟨"1.0.0", "", "btp-manager"⟩ "registry/path/mod" [] "" '/').1,
   ⟨by decide,
    (last_segment_in_bounds ⟨"1.0.0", "", "btp-manager"⟩ "registry/path/mod" [] ""
      '/').2.2.2.1 (by decide)⟩,
   ⟨by decide,
    (last_segment_in_bounds ⟨"1.0.0", "", "btp-manager"⟩ "registry/path/mod" [] ""
      '/').2.2.2.2 (by decide)⟩,
   by decide, by decide, by decide⟩

end Communitymodules

namespace kyma

/-! ## The module list of the Kyma resource -/

theorem setChannel_of_absent (list : List Module) (name channel : String)
    (h : ∀ x ∈ list, x.Name ≠ name) : setChannel list name channel = list := by
  induction list with
  | nil => rfl
  | cons m rest ih =>
    have hm : ¬ m.Name = name := h m (by simp)
    simp [setChannel, hm, ih (fun x hx => h x (by simp [hx]))]

theorem setChannel_first (pre post : List Module) (m : Module) (name channel : String)
    (hpre : ∀ x ∈ pre, x.Name ≠ name) (hm : m.Name = name) :
    setChannel (pre ++ m :: post) name channel = pre ++ ⟨m.Name, channel⟩ :: post := by
  induction pre with
  | nil => simp [setChannel, hm]
  | cons p pre ih =>
    have hp : ¬ p.Name = name := hpre p (by simp)
    simp [setChannel, hp, ih (fun x hx => hpre x (by simp [hx]))]

/-- A list that has an entry called `name` splits at the first such entry. -/
theorem split_at_first (list : List Module) (name : String) (h : ∃ m ∈ list, m.Name = name) :
    ∃ pre m post, list = pre ++ m :: post ∧ (∀ x ∈ pre, x.Name ≠ name) ∧ m.Name = name := by
  induction list with
  | nil => simp at h
  | cons a rest ih =>
    by_cases ha : a.Name = name
    · exact ⟨[], a, rest, rfl, by simp, ha⟩
    · have hrest : ∃ m ∈ rest, m.Name = name := by
        obtain ⟨m, hm, hn⟩ := h
        rcases List.mem_cons.1 hm with rfl | hm
        · exact absurd hn ha
        · exact ⟨m, hm, hn⟩
      obtain ⟨pre, m, post, h1, h2, h3⟩ := ih hrest
      refine ⟨a :: pre, m, post, by rw [h1]; rfl, ?_, h3⟩
      intro x hx
      rcases List.mem_cons.1 hx with rfl | hx
      · exact ha
      · exact h2 x hx

theorem any_name_iff (list : List Module) (name : String) :
    list.any (fun m => decide (m.Name = name)) = true ↔ ∃ m ∈ list, m.Name = name := by
  simp [List.any_eq_true]

theorem enable_of_present (pre post : List Module) (m : Module) (name channel : String)
    (hpre : ∀ x ∈ pre, x.Name ≠ name) (hm : m.Name = name) :
    enable (pre ++ m :: post) name channel = pre ++ ⟨m.Name, channel⟩ :: post := by
  have h : (pre ++ m :: post).any (fun x => decide (x.Name = name)) = true :=
    (any_name_iff _ _).2 ⟨m, by simp, hm⟩
  simp only [enable, h, if_true]
  exact setChannel_first pre post m name channel hpre hm

theorem enable_of_absent (list : List Module) (name channel : String)
    (h : ∀ x ∈ list, x.Name ≠ name) : enable list name channel = list ++ [⟨name, channel⟩] := by
  have h2 : ¬ list.any (fun x => decide (x.Name = name)) = true := by
    rw [any_name_iff]
    rintro ⟨m, hm, hn⟩
    exact h m hm hn
  simp [enable, h2]

/-- C11: `enable(list, name, channel)` is the reference operation of the claim:
if some entry has the given name, the list splits at the first such entry and
the result is the same list with the channel of that entry replaced by the
given channel (possibly empty), at the same position, every other entry and
the order unchanged (so the length is unchanged too); otherwise the result is
the list with the new entry `{name, channel}` appended at the end. -/
theorem enable_reference (list : List Module) (name channel : String) :
    ((∃ m ∈ list, m.Name = name) →
      ∃ pre m post, list = pre ++ m :: post ∧ (∀ x ∈ pre, x.Name ≠ name) ∧ m.Name = name ∧
        enable list name channel = pre ++ ⟨m.Name, channel⟩ :: post ∧
        (enable list name channel).length = list.length) ∧
    ((∀ m ∈ list, m.Name ≠ name) → enable list name channel = list ++ [⟨name, channel⟩]) := by
  constructor
  · intro h
    obtain ⟨pre, m, post, h1, h2, h3⟩ := split_at_first list name h
    have he := enable_of_present pre post m name channel h2 h3
    refine ⟨pre, m, post, h1, h2, h3, by rw [h1, he], ?_⟩
    rw [h1, he]
    simp
  · exact enable_of_absent list name channel

theorem enable_reference_witness :
    ((∀ m ∈ ([⟨"istio", ""⟩] : List Module), m.Name ≠ "module") ∧
      enable [⟨"istio", ""⟩] "module" "channel" = [⟨"istio", ""⟩] ++ [⟨"module", "channel"⟩]) ∧
    ((∃ m ∈ ([⟨"module", "channel"⟩] : List Module), m.Name = "module") ∧
      ∃ pre m post, [⟨"module", "channel"⟩] = pre ++ m :: post ∧
        (∀ x ∈ pre, x.Name ≠ "module") ∧ m.Name = "module" ∧
        enable [⟨"module", "channel"⟩] "module" "" = pre ++ ⟨m.Name, ""⟩ :: post ∧
        (enable [⟨"module", "channel"⟩] "module" "").length
          = ([⟨"module", "channel"⟩] : List Module).length) ∧
    enable [⟨"istio", ""⟩] "module" "channel" = [⟨"istio", ""⟩, ⟨"module", "channel"⟩] ∧
    enable [⟨"module", "channel"⟩] "module" "" = [⟨"module", ""⟩] ∧
    enableModule ⟨⟨"fast", [⟨"istio", ""⟩]⟩⟩ "module" ""
      = ⟨⟨"fast", [⟨"istio", ""⟩, ⟨"module", ""⟩]⟩⟩ ∧
    enableModule ⟨⟨"fast", [⟨"module", ""⟩]⟩⟩ "module" "channel"
      = ⟨⟨"fast", [⟨"module", "channel"⟩]⟩⟩ :=
  ⟨⟨by decide, (enable_reference [⟨"istio", ""⟩] "module" "channel").2 (by decide)⟩,
   ⟨by decide, (enable_reference [⟨"module", "channel"⟩] "module" "").1 (by decide)⟩,
   by decide, by decide, by decide, by decide⟩

/-- C12: `disable(list, name)` removes the first entry whose name matches and
keeps every other entry in its original relative order: the list splits at
the first such entry and the result is what is before it followed by what is
after it; when no entry has that name the result is the input list unchanged;
the result is always a sublist of the input, and the operation is a total
function (it has no failure). -/
theorem disable_first_match (list : List Module) (name : String) :
    ((∃ m ∈ list, m.Name = name) →
      ∃ pre m post, list = pre ++ m :: post ∧ (∀ x ∈ pre, x.Name ≠ name) ∧ m.Name = name ∧
        disable list name = pre ++ post) ∧
    ((∀ m ∈ list, m.Name ≠ name) → disable list name = list) ∧
    (disable list name).Sublist list := by
  induction list with
  | nil => simp [disable]
  | cons a rest ih =>
    obtain ⟨ih1, ih2, ih3⟩ := ih
    by_cases ha : a.Name = name
    · refine ⟨fun _ => ⟨[], a, rest, rfl, by simp, ha, by simp [disable, ha]⟩, ?_, ?_⟩
      · intro h
        exact absurd ha (h a (by simp))
      · simp [disable, ha]
    · refine ⟨?_, ?_, ?_⟩
      · intro h
        have hrest : ∃ m ∈ rest, m.Name = name := by
          obtain ⟨m, hm, hn⟩ := h
          rcases List.mem_cons.1 hm with rfl | hm
          · exact absurd hn ha
          · exact ⟨m, hm, hn⟩
        obtain ⟨pre, m, post, h1, h2, h3, h4⟩ := ih1 hrest
        refine ⟨a :: pre, m, post, by rw [h1]; rfl, ?_, h3, by simp [disable, ha, h4]⟩
        intro x hx
        rcases List.mem_cons.1 hx with rfl | hx
        · exact ha
        · exact h2 x hx
      · intro h
        simp [disable, ha, ih2 (fun x hx => h x (by simp [hx]))]
      · simp only [disable, ha, if_false]
        exact ih3.cons₂ a

theorem disable_first_match_witness :
    ((∃ m ∈ ([⟨"istio", ""⟩, ⟨"module", ""⟩] : List Module), m.Name = "module") ∧
      ∃ pre m post, [⟨"istio", ""⟩, ⟨"module", ""⟩] = pre ++ m :: post ∧
        (∀ x ∈ pre, x.Name ≠ "module") ∧ m.Name = "module" ∧
        disable [⟨"istio", ""⟩, ⟨"module", ""⟩] "module" = pre ++ post) ∧
    ((∀ m ∈ ([⟨"istio", ""⟩] : List Module), m.Name ≠ "module") ∧
      disable [⟨"istio", ""⟩] "module" = [⟨"istio", ""⟩]) ∧
    disable [⟨"istio", ""⟩, ⟨"module", ""⟩] "module" = [⟨"istio", ""⟩] ∧
    disableModule ⟨⟨"fast", [⟨"istio", ""⟩, ⟨"module", ""⟩]⟩⟩ "module"
      = ⟨⟨"fast", [⟨"istio", ""⟩]⟩⟩ ∧
    disableModule ⟨⟨"fast", [⟨"istio", ""⟩]⟩⟩ "module" = ⟨⟨"fast", [⟨"istio", ""⟩]⟩⟩ :=
  ⟨⟨by decide, (disable_first_match [⟨"istio", ""⟩, ⟨"module", ""⟩] "module").1 (by decide)⟩,
   ⟨by decide, (disable_first_match [⟨"istio", ""⟩] "module").2.1 (by decide)⟩,
   by decide, by decide, by decide⟩

/-- C13: `enable` is idempotent: a second call with the same name and channel
gives the list of the first call; and enabling a module whose (first)
declaration already has the given channel leaves the list unchanged. -/
theorem enable_idempotent (list : List Module) (name channel : String) :
    enable (enable list name channel) name channel = enable list name channel ∧
    (∀ pre m post, list = pre ++ m :: post → (∀ x ∈ pre, x.Name ≠ name) → m.Name = name →
      m.Channel = channel → enable list name channel = list) := by
  constructor
  · by_cases h : ∃ m ∈ list, m.Name = name
    · obtain ⟨pre, m, post, h1, h2, h3⟩ := split_at_first list name h
      rw [h1, enable_of_present pre post m name channel h2 h3]
      exact enable_of_present pre post ⟨m.Name, channel⟩ name channel h2 h3
    · have habs : ∀ x ∈ list, x.Name ≠ name := fun x hx hn => h ⟨x, hx, hn⟩
      rw [enable_of_absent list name channel habs]
      exact enable_of_present list [] ⟨name, channel⟩ name channel habs rfl
  · intro pre m post h1 h2 h3 h4
    rw [h1, enable_of_present pre post m name channel h2 h3]
    have : (⟨m.Name, channel⟩ : Module) = m := by
      cases m
      simp only [Module.mk.injEq, true_and]
      exact h4.symm
    rw [this]

theorem enable_idempotent_witness :
    enable (enable [⟨"module", ""⟩] "module" "") "module" "" = enable [⟨"module", ""⟩] "module" "" ∧
    enable [⟨"module", ""⟩] "module" "" = [⟨"module", ""⟩] ∧
    enable (enable [⟨"istio", ""⟩] "module" "channel") "module" "channel"
      = [⟨"istio", ""⟩, ⟨"module", "channel"⟩] ∧
    enableModule ⟨⟨"", [⟨"module", ""⟩]⟩⟩ "module" "" = ⟨⟨"", [⟨"module", ""⟩]⟩⟩ :=
  ⟨(enable_idempotent [⟨"module", ""⟩] "module" "").1,
   (enable_idempotent [⟨"module", ""⟩] "module" "").2 [] ⟨"module", ""⟩ [] rfl (by decide) rfl rfl,
   by decide, by decide⟩

end kyma
